import Mathlib

/-!
# Verification of the ff-core property-linking graph

Shallow embedding of the reactive property/link/sorter/scheduler core of the
ff-core TypeScript library (`source/ecs/Property.ts`, `source/ecs/PropertySet.ts`,
`LinkableSorter` in `source/ecs/Performer.ts`, `System.ts`, `Module.ts`,
`Component.ts`), together with proofs and refutations of the specification's
claims about it.

Mutable object state is embedded as explicit state passing over a `World`
record.  Properties and linkables are identified by natural numbers.  The
recursive value cascade of `setValue`/`push` is embedded with an explicit fuel
parameter; theorems about acyclic graphs assume the fuel dominates every path
length, which is exactly the acyclicity-plus-finiteness assumption of the spec.
-/

set_option maxRecDepth 8000

namespace FFCore

/-- Identifier of a property instance. -/
abbrev PropId := Nat

/-- Identifier of a linkable (component) instance. -/
abbrev LId := Nat

/-- The result of TypeScript `typeof` on a property preset, as used by
`Property.type` (`"number" | "boolean" | "string" | "object"`). -/
inductive PType where
  | number
  | boolean
  | string
  | object
deriving DecidableEq, Repr

/-- JavaScript runtime values as far as the property core manipulates them:
`undefined`, `null`, primitives, opaque objects (identified by a tag) and
arrays. -/
inductive Value where
  | undefined
  | vnull
  | num (n : Int)
  | bool (b : Bool)
  | str (s : String)
  | obj (tag : Nat)
  | arr (elems : List Value)
deriving Repr

mutual

/-- Boolean structural equality on JavaScript values. -/
def Value.beq : Value → Value → Bool
  | .undefined, .undefined => true
  | .vnull, .vnull => true
  | .num a, .num b => a == b
  | .bool a, .bool b => a == b
  | .str a, .str b => a == b
  | .obj a, .obj b => a == b
  | .arr a, .arr b => Value.beqList a b
  | _, _ => false

/-- Boolean structural equality on lists of JavaScript values. -/
def Value.beqList : List Value → List Value → Bool
  | [], [] => true
  | x :: xs, y :: ys => Value.beq x y && Value.beqList xs ys
  | _, _ => false

end

mutual

theorem Value.beq_iff_eq : ∀ a b : Value, Value.beq a b = true ↔ a = b
  | .undefined, .undefined => by simp [Value.beq]
  | .undefined, .vnull => by simp [Value.beq]
  | .undefined, .num _ => by simp [Value.beq]
  | .undefined, .bool _ => by simp [Value.beq]
  | .undefined, .str _ => by simp [Value.beq]
  | .undefined, .obj _ => by simp [Value.beq]
  | .undefined, .arr _ => by simp [Value.beq]
  | .vnull, .undefined => by simp [Value.beq]
  | .vnull, .vnull => by simp [Value.beq]
  | .vnull, .num _ => by simp [Value.beq]
  | .vnull, .bool _ => by simp [Value.beq]
  | .vnull, .str _ => by simp [Value.beq]
  | .vnull, .obj _ => by simp [Value.beq]
  | .vnull, .arr _ => by simp [Value.beq]
  | .num _, .undefined => by simp [Value.beq]
  | .num _, .vnull => by simp [Value.beq]
  | .num a, .num b => by simp [Value.beq]
  | .num _, .bool _ => by simp [Value.beq]
  | .num _, .str _ => by simp [Value.beq]
  | .num _, .obj _ => by simp [Value.beq]
  | .num _, .arr _ => by simp [Value.beq]
  | .bool _, .undefined => by simp [Value.beq]
  | .bool _, .vnull => by simp [Value.beq]
  | .bool _, .num _ => by simp [Value.beq]
  | .bool a, .bool b => by simp [Value.beq]
  | .bool _, .str _ => by simp [Value.beq]
  | .bool _, .obj _ => by simp [Value.beq]
  | .bool _, .arr _ => by simp [Value.beq]
  | .str _, .undefined => by simp [Value.beq]
  | .str _, .vnull => by simp [Value.beq]
  | .str _, .num _ => by simp [Value.beq]
  | .str _, .bool _ => by simp [Value.beq]
  | .str a, .str b => by simp [Value.beq]
  | .str _, .obj _ => by simp [Value.beq]
  | .str _, .arr _ => by simp [Value.beq]
  | .obj _, .undefined => by simp [Value.beq]
  | .obj _, .vnull => by simp [Value.beq]
  | .obj _, .num _ => by simp [Value.beq]
  | .obj _, .bool _ => by simp [Value.beq]
  | .obj _, .str _ => by simp [Value.beq]
  | .obj a, .obj b => by simp [Value.beq]
  | .obj _, .arr _ => by simp [Value.beq]
  | .arr _, .undefined => by simp [Value.beq]
  | .arr _, .vnull => by simp [Value.beq]
  | .arr _, .num _ => by simp [Value.beq]
  | .arr _, .bool _ => by simp [Value.beq]
  | .arr _, .str _ => by simp [Value.beq]
  | .arr _, .obj _ => by simp [Value.beq]
  | .arr a, .arr b => by
      simp only [Value.beq, Value.arr.injEq]
      exact Value.beqList_iff_eq a b

theorem Value.beqList_iff_eq : ∀ a b : List Value, Value.beqList a b = true ↔ a = b
  | [], [] => by simp [Value.beqList]
  | [], _ :: _ => by simp [Value.beqList]
  | _ :: _, [] => by simp [Value.beqList]
  | x :: xs, y :: ys => by
      simp only [Value.beqList, Bool.and_eq_true, List.cons.injEq]
      exact and_congr (Value.beq_iff_eq x y) (Value.beqList_iff_eq xs ys)

end

instance : DecidableEq Value := fun a b =>
  decidable_of_iff (Value.beq a b = true) (Value.beq_iff_eq a b)

/-- Reading `v[i]` in JavaScript: element of an array, `undefined` otherwise
(the cascade never indexes `null`/`undefined` in the claims considered). -/
def Value.getIdx : Value → Nat → Value
  | .arr l, i => l.getD i .undefined
  | _, _ => .undefined

/-- Writing `v[i] = x` in JavaScript on an array value: in-range assignment
replaces the element, out-of-range assignment extends the array (holes become
`undefined`).  Assignment on a non-array primitive value is silently ignored. -/
def Value.setIdx : Value → Nat → Value → Value
  | .arr l, i, x =>
      if i < l.length then .arr (l.set i x)
      else .arr (l ++ List.replicate (i - l.length) .undefined ++ [x])
  | v, _, _ => v

/-- JavaScript truthiness, as used by `if (!multiArray)` in `Property.reset`. -/
def Value.truthy : Value → Bool
  | .undefined => false
  | .vnull => false
  | .num n => n ≠ 0
  | .bool b => b
  | .str s => s ≠ ""
  | .obj _ => true
  | .arr _ => true

/-- A `PropertyLink`: directed edge between two properties with optional
element indices (`source`, `destination`, `sourceIndex`, `destinationIndex`). -/
structure Link where
  source : PropId
  destination : PropId
  sourceIndex : Option Nat
  destinationIndex : Option Nat
deriving DecidableEq, Repr

/-- The world state: the static schema data of every property
(`elements`, `type`, `schema.objectType`, `schema.multi`, `preset`, `key`,
owning linkable and whether its property set is the linkable's `ins`), its
mutable state (`value`, `changed`, `inLinks`, `outLinks`) and the `changed`
flags of the linkables.  `owner p = none` embeds `property.props === null`
(a property not yet added to a `PropertySet`). -/
structure World where
  elements : PropId → Nat
  ptype : PropId → PType
  objectType : PropId → Option Nat
  multi : PropId → Bool
  preset : PropId → Value
  key : PropId → String
  owner : PropId → Option LId
  isInput : PropId → Bool
  value : PropId → Value
  changed : PropId → Bool
  inLinks : PropId → List Link
  outLinks : PropId → List Link
  lchanged : LId → Bool

namespace World

/-- Update the value and changed flag of one property. -/
def writeProp (w : World) (p : PropId) (v : Value) : World :=
  { w with
    value := fun q => if q = p then v else w.value q
    changed := fun q => if q = p then true else w.changed q }

/-- Set only the changed flag of one property (as `Property.push` does). -/
def flagProp (w : World) (p : PropId) : World :=
  { w with changed := fun q => if q = p then true else w.changed q }

/-- `property.props.linkable.changed = true`, guarded by `if (this.props)`. -/
def markOwner (w : World) (p : PropId) : World :=
  match w.owner p with
  | none => w
  | some o => { w with lchanged := fun q => if q = o then true else w.lchanged q }

end World

/-- The value a link transmits: `source.value`, or `source.value[sourceIndex]`
if the link carries a source element index. -/
def linkSourceValue (w : World) (l : Link) : Value :=
  match l.sourceIndex with
  | none => w.value l.source
  | some i => (w.value l.source).getIdx i

/-- Modelled from the spec: `PropertyLink.push` is not under `src/` (only its
callers in `Property.ts` are).  Per spec §4.2 it reads the current value from
the source (whole value, or `source.value[sourceIndex]` if indexed), writes it
into the destination (whole value, or `destination.value[destinationIndex]` if
indexed) and marks the destination's owning linkable changed; per spec §4.1/§8
the write cascades synchronously through the destination's own outbound links,
which is the behaviour of `Property.pushValue`/`Property.push` in
`source/ecs/Property.ts`.  The recursion is given explicit fuel. -/
def pushLink : Nat → World → Link → World
  | 0, w, _ => w
  | fuel + 1, w, l =>
    let v := linkSourceValue w l
    let w1 :=
      match l.destinationIndex with
      | none => w.writeProp l.destination v
      | some j => (w.flagProp l.destination).writeProp l.destination
          ((w.value l.destination).setIdx j v)
    let w2 := (w1.outLinks l.destination).foldl (fun a b => pushLink fuel a b) w1
    w2.markOwner l.destination

/-- `Property.setValue(value)`: store the value, set the changed flag, push
the value through every outbound link, then mark the owning linkable changed. -/
def setValue (fuel : Nat) (w : World) (p : PropId) (v : Value) : World :=
  let w1 := w.writeProp p v
  let w2 := (w1.outLinks p).foldl (fun a b => pushLink fuel a b) w1
  w2.markOwner p

/-- `Property.hasInLinks()`: `this.inLinks.length > 0`. -/
def hasInLinks (w : World) (p : PropId) : Bool :=
  (w.inLinks p).length > 0

/-- `Property.hasOutLinks()`: `this.outLinks.length > 0`. -/
def hasOutLinks (w : World) (p : PropId) : Bool :=
  (w.outLinks p).length > 0

/-- `Property.isMulti()`: `!!this.schema.multi`. -/
def isMulti (w : World) (p : PropId) : Bool :=
  w.multi p

/-- `Property.clonePreset()`: the preset, sliced if it is an array.  A slice
copy is structurally identical to the original. -/
def clonePreset (w : World) (p : PropId) : Value :=
  w.preset p

/-- Modelled from the spec: `canConvert` lives in the missing `convert.ts`
(only its caller `Property.canLinkFrom` is under `src/`).  Per spec §4.1(f):
numeric, boolean and string convert to one another; the object type never
converts to or from primitives (object-to-object is reached only after the
`objectType` tags were found equal, and is allowed). -/
def canConvert : PType → PType → Bool
  | .object, .object => true
  | .object, _ => false
  | _, .object => false
  | _, _ => true

/-- `Property.canLinkFrom(source, sourceIndex?, destinationIndex?)`, called on
the destination property.  `Except.error` embeds a thrown exception (including
the `TypeError` of dereferencing `this.props.linkable` when `props` is null);
`Except.ok b` embeds a regular boolean return. -/
def canLinkFrom (w : World) (dst src : PropId)
    (sourceIndex destinationIndex : Option Nat) : Except String Bool :=
  match w.owner dst with
  | none => .error "TypeError: this.props is null"
  | some _ =>
    -- can't link to an output property
    if ¬ w.isInput dst then .ok false
    else
      let validSrcIndex := sourceIndex.isSome
      let validDstIndex := destinationIndex.isSome
      if w.elements src = 1 ∧ validSrcIndex then
        .error "non-array source property; can't link to element"
      else if w.elements dst = 1 ∧ validDstIndex then
        .error "non-array destination property; can't link to element"
      else
        let srcIsArray := w.elements src > 1 ∧ ¬ validSrcIndex
        let dstIsArray := w.elements dst > 1 ∧ ¬ validDstIndex
        if ¬ (srcIsArray ↔ dstIsArray) then .ok false
        else if srcIsArray ∧ w.elements src ≠ w.elements dst then .ok false
        else if w.ptype src = .object ∧ w.ptype dst = .object ∧
            w.objectType src ≠ w.objectType dst then .ok false
        else .ok (canConvert (w.ptype src) (w.ptype dst))

/-- The list mutation of `Property.addInLink`: `this.inLinks.push(link)`. -/
def pushInLink (w : World) (p : PropId) (l : Link) : World :=
  { w with inLinks := fun q =>
    if q = p then w.inLinks q ++ [l] else w.inLinks q }

/-- The list mutation of `Property.addOutLink`: `this.outLinks.push(link)`
(the subsequent `link.push()` is applied by the caller). -/
def pushOutLink (w : World) (p : PropId) (l : Link) : World :=
  { w with outLinks := fun q =>
    if q = p then w.outLinks q ++ [l] else w.outLinks q }

/-- `Property.linkFrom(source, sourceIndex?, destinationIndex?)`, called on the
destination property: fail unless `canLinkFrom` holds, create the link,
register it on both properties (`addInLink` pushes it onto the destination's
`inLinks`, `addOutLink` pushes it onto the source's `outLinks` and then pushes
the current source value through the new link). -/
def linkFrom (fuel : Nat) (w : World) (dst src : PropId)
    (sourceIndex destinationIndex : Option Nat) : Except String World :=
  match canLinkFrom w dst src sourceIndex destinationIndex with
  | .error e => .error e
  | .ok false => .error "can't link"
  | .ok true =>
    let l : Link := ⟨src, dst, sourceIndex, destinationIndex⟩
    .ok (pushLink fuel (pushOutLink (pushInLink w dst l) src l) l)

/-- `Property.reset()`: fail if the property has inbound links; otherwise
restore the preset.  The embedding reproduces the source faithfully, including
the slip in the multi branch: when a multi array already exists the code
mutates it in place (`multiArray.length = 1; multiArray[0] = clonePreset()`)
but never assigns the local variable `value`, so the final `setValue(value)`
call stores `undefined`. -/
def reset (fuel : Nat) (w : World) (p : PropId) : Except String World :=
  if hasInLinks w p then .error "can't reset property with input links"
  else if isMulti w p then
    if ¬ (w.value p).truthy then
      -- value = multiArray = []; multiArray[0] = clonePreset(); setValue(value)
      .ok (setValue fuel w p (.arr [clonePreset w p]))
    else
      -- multiArray.length = 1; multiArray[0] = clonePreset()  (in-place on this.value),
      -- then setValue(value) with the local `value` still undefined
      let w1 := { w with value := fun q =>
        if q = p then .arr [clonePreset w p] else w.value q }
      .ok (setValue fuel w1 p .undefined)
  else
    .ok (setValue fuel w p (clonePreset w p))

/-- The list mutation of `Property.removeOutLink`:
`this.outLinks.splice(index, 1)` at the index found for the link. -/
def eraseOutLink (w : World) (p : PropId) (l : Link) : World :=
  { w with outLinks := fun q =>
    if q = p then (w.outLinks q).erase l else w.outLinks q }

/-- The list mutation of `Property.removeInLink`:
`this.inLinks.splice(index, 1)` at the index found for the link. -/
def eraseInLink (w : World) (p : PropId) (l : Link) : World :=
  { w with inLinks := fun q =>
    if q = p then (w.inLinks q).erase l else w.inLinks q }

/-- `Property.removeOutLink(link)`: splice the link out of `outLinks` (throws
if absent). -/
def removeOutLink (w : World) (p : PropId) (l : Link) : Except String World :=
  if l ∈ w.outLinks p then .ok (eraseOutLink w p l)
  else .error "output link not found"

/-- `Property.removeInLink(link)`: splice the link out of `inLinks` (throws if
absent); if the last inbound link of an object-typed property was removed,
reset the property to its default. -/
def removeInLink (fuel : Nat) (w : World) (p : PropId) (l : Link) :
    Except String World :=
  if l ∈ w.inLinks p then
    if ((eraseInLink w p l).inLinks p).length = 0 ∧ w.ptype p = .object then
      reset fuel (eraseInLink w p l) p
    else .ok (eraseInLink w p l)
  else .error "input link not found"

/-- The match predicate of `Property.unlinkFrom`: an inbound link matches the
supplied `(source, sourceIndex, destinationIndex)` triple. -/
def linkMatches (src : PropId) (sourceIndex destinationIndex : Option Nat)
    (l : Link) : Bool :=
  l.source = src ∧ l.sourceIndex = sourceIndex ∧
    l.destinationIndex = destinationIndex

/-- `Property.unlinkFrom(source, sourceIndex?, destinationIndex?)`, called on
the destination property: find the first inbound link matching the triple;
return `false` if there is none, otherwise remove it from both endpoints and
return `true`. -/
def unlinkFrom (fuel : Nat) (w : World) (dst src : PropId)
    (sourceIndex destinationIndex : Option Nat) :
    Except String (World × Bool) :=
  match (w.inLinks dst).find?
      (linkMatches src sourceIndex destinationIndex) with
  | none => .ok (w, false)
  | some l => do
    let w1 ← removeInLink fuel w dst l
    let w2 ← removeOutLink w1 src l
    .ok (w2, true)

/-- `Property.isDefault()`: compare the current value (channel 0 for multi
properties) with the preset, element-wise for arrays.  `-1` as the length of a
non-array is embedded as `none`. -/
def isDefault (w : World) (p : PropId) : Bool :=
  let value := if w.multi p then (w.value p).getIdx 0 else w.value p
  let preset := w.preset p
  let valueLength : Option Nat :=
    match value with | .arr l => some l.length | _ => none
  let presetLength : Option Nat :=
    match preset with | .arr l => some l.length | _ => none
  if valueLength ≠ presetLength then false
  else
    match value, preset with
    | .arr lv, .arr lp => decide (lv = lp)
    | v, pr => decide (v = pr)

/-- One entry of the `links` list built by `Property.toJSON`:
`{ component: link.destination.props.linkable.id, key: link.destination.key }`. -/
structure JsonLink where
  component : Option LId
  key : String
deriving DecidableEq, Repr

/-- The serialized shape `{ key, value?, links? }` of a single property. -/
structure PJson where
  key : String
  value : Option Value
  links : Option (List JsonLink)
deriving DecidableEq, Repr

/-- The object assembled in the local variable `json` of `Property.toJSON`:
always the key; the value exactly when the property has no inbound links and
is not at its default; the links list exactly when there are outbound links. -/
def toJSONObject (w : World) (p : PropId) : PJson :=
  { key := w.key p
    value :=
      if ¬ hasInLinks w p ∧ ¬ isDefault w p then some (w.value p) else none
    links :=
      if hasOutLinks w p then
        some ((w.outLinks p).map fun l =>
          ⟨w.owner l.destination, w.key l.destination⟩)
      else none }

/-- `Property.toJSON()`: the source builds the `json` object but ends without
a `return` statement, so the call evaluates to `undefined` (`none`). -/
def Property.toJSON (w : World) (p : PropId) : Option PJson :=
  let _json := toJSONObject w p
  none

/-! ## PropertySet (`src/unnamed/part_004`)

A `PropertySet` holds key bindings (`this[key]`), the ordered `properties`
array and the `_propsByPath` index.  Each property's `key` and `path` fields
are supplied as environment functions `pkey`/`ppath`. -/

/-- The mutable state of one `PropertySet`. -/
structure PSet where
  byKey : String → Option PropId
  properties : List PropId
  propsByPath : String → Option PropId

/-- `PropertySet.remove(property)`: throw unless `this[property.key]` is the
property; delete the key binding; compute `indexOf` and call
`props.slice(index, 1)` — `slice` is non-mutating and its result is discarded,
so the `properties` array is left untouched; delete the path index entry. -/
def PSet.remove (pkey ppath : PropId → String) (s : PSet) (p : PropId) :
    Except String PSet :=
  if s.byKey (pkey p) = some p then
    .ok { byKey := fun k => if k = pkey p then none else s.byKey k
          properties := s.properties
          propsByPath := fun q => if q = ppath p then none else s.propsByPath q }
  else .error ("property not found in set: " ++ pkey p)

/-- `PropertySet.getProperty(path)`: `_propsByPath` lookup, throwing when no
property is found. -/
def PSet.getProperty (s : PSet) (path : String) : Except String PropId :=
  match s.propsByPath path with
  | some prop => .ok prop
  | none => .error ("no property found at path " ++ path)

/-! ## Scheduler update phase (`System.update` / `Module.update`)

The update walk observes and clears per-component and per-property changed
flags.  The user-overridable `Component.update` bodies are an abstract state
transformer `upd`; the input property lists are the environment `insOf`. -/

/-- The flags the update walk reads and writes. -/
structure SysState where
  cchanged : LId → Bool
  pchanged : PropId → Bool

/-- `Component.resetChanged()`: clear the component's changed flag and the
changed flags of all its input properties. -/
def Component.resetChanged (insOf : LId → List PropId) (c : LId)
    (st : SysState) : SysState :=
  { cchanged := fun q => if q = c then false else st.cchanged q
    pchanged := fun p => if p ∈ insOf c then false else st.pchanged p }

/-- One iteration of the update loop of `System.update`: if the component's
changed flag is set, invoke its `update` and then `resetChanged`. -/
def System.updateStep (insOf : LId → List PropId)
    (upd : LId → SysState → SysState) (st : SysState) (c : LId) : SysState :=
  if st.cchanged c then Component.resetChanged insOf c (upd c st) else st

/-- The update walk of `System.update` (and `Module.update`): visit the sorted
component collection strictly in order. -/
def System.updateRun (insOf : LId → List PropId)
    (upd : LId → SysState → SysState) (cs : List LId) (st : SysState) :
    SysState :=
  cs.foldl (System.updateStep insOf upd) st

/-! ## LinkableSorter (`source/ecs/LinkableSorter.ts`, second document of
`src/source/ecs/Performer.ts`) -/

/-- The static link structure the sorter traverses: each linkable's output
property list, each property's containing set (its properties and its
linkable) and each property's outbound links. -/
structure SGraph where
  outs : LId → List PropId
  setProps : PropId → List PropId
  setOwner : PropId → LId
  outLinksOf : PropId → List Link

/-- The linkables visited by the body of `LinkableSorter.visit` for one
linkable, in source iteration order: for every outbound link of every output
property, first the owners reached by following the outgoing links found on
the destination set's properties, then the destination set's own linkable. -/
def sorterSuccs (g : SGraph) (a : LId) : List LId :=
  (g.outs a).flatMap fun p =>
    (g.outLinksOf p).flatMap fun l =>
      ((g.setProps l.destination).flatMap fun ip =>
        (g.outLinksOf ip).map fun l3 => g.setOwner l3.destination)
      ++ [g.setOwner l.destination]

/-- The sorter's working state: the `visited` and `visiting` dictionaries and
the result list built by `unshift`. -/
structure SorterSt where
  visited : List LId
  visiting : List LId
  sorted : List LId
deriving DecidableEq, Repr

/-- `LinkableSorter.visit(linkable)`: skip if visited or visiting; otherwise
mark visiting, recurse into all dependents, then clear visiting, mark visited
and prepend the linkable to the result.  The recursion carries explicit
fuel. -/
def LinkableSorter.visit (g : SGraph) : Nat → SorterSt → LId → SorterSt
  | 0, st, _ => st
  | fuel + 1, st, a =>
    if a ∈ st.visited ∨ a ∈ st.visiting then st
    else
      let st1 : SorterSt := { st with visiting := a :: st.visiting }
      let st2 := (sorterSuccs g a).foldl
        (fun s b => LinkableSorter.visit g fuel s b) st1
      { visited := a :: st2.visited
        visiting := st2.visiting.erase a
        sorted := a :: st2.sorted }

/-- `LinkableSorter.sort(linkables)`: visit every supplied linkable in order
starting from empty dictionaries and return the accumulated order. -/
def LinkableSorter.sort (g : SGraph) (fuel : Nat) (xs : List LId) :
    List LId :=
  (xs.foldl (fun s a => LinkableSorter.visit g fuel s a)
    ⟨[], [], []⟩).sorted

/-! ## Concrete worlds used by counterexamples and witnesses -/

/-- A world of scalar number input properties: every property has
`elements = 1`, type `number`, preset `0`, value `0`, no links, and belongs to
the `ins` set of the linkable with its own id 0. -/
def baseWorld : World :=
  { elements := fun _ => 1
    ptype := fun _ => .number
    objectType := fun _ => none
    multi := fun _ => false
    preset := fun _ => .num 0
    key := fun _ => ""
    owner := fun _ => some 0
    isInput := fun _ => true
    value := fun _ => .num 0
    changed := fun _ => false
    inLinks := fun _ => []
    outLinks := fun _ => []
    lchanged := fun _ => false }

/-- A world whose property 0 is a multi (variable channel count) number
property with preset `7` and an already-initialized multi array value. -/
def multiWorld : World :=
  { baseWorld with
    multi := fun p => decide (p = 0)
    preset := fun _ => .num 7
    value := fun p => if p = 0 then .arr [.num 7] else .num 0 }

/-- A world where property 1 is an output of linkable 1 and property 0 is an
input of linkable 0, both scalar numbers — a linkable pair. -/
def pairWorld : World :=
  { baseWorld with
    owner := fun p => some p
    isInput := fun p => decide (p = 0) }

/-- A world whose property 0 has key `"num0"` and a non-default value `13`. -/
def jsonWorld : World :=
  { baseWorld with
    key := fun _ => "num0"
    value := fun p => if p = 0 then .num 13 else .num 0 }

/-- A world of whole-array number properties with mismatched lengths:
property 0 has 2 elements, every other property has 3. -/
def arrWorld : World :=
  { baseWorld with
    elements := fun p => if p = 0 then 2 else 3
    preset := fun p => if p = 0 then .arr [.num 0, .num 0]
      else .arr [.num 0, .num 0, .num 0]
    value := fun p => if p = 0 then .arr [.num 0, .num 0]
      else .arr [.num 0, .num 0, .num 0] }

/-- A world of scalar object-typed properties whose `objectType` tags all
differ (property `p` carries tag `p`). -/
def objWorld : World :=
  { baseWorld with
    ptype := fun _ => .object
    objectType := fun p => some p
    preset := fun _ => .vnull
    value := fun _ => .vnull }

/-- `pairWorld` with one link already registered from output property 1 to
input property 0. -/
def linkedWorld : World :=
  { pairWorld with
    inLinks := fun p => if p = 0 then [⟨1, 0, none, none⟩] else []
    outLinks := fun p => if p = 1 then [⟨1, 0, none, none⟩] else [] }

/-- A linkable graph of two linkables: linkable 0 owns output property 10,
linkable 1 owns input property 11, and one link runs from 10 to 11. -/
def linkedSGraph : SGraph :=
  { outs := fun a => if a = 0 then [10] else []
    setProps := fun p => if p = 11 then [11] else [10]
    setOwner := fun p => if p = 11 then 1 else 0
    outLinksOf := fun p => if p = 10 then [⟨10, 11, none, none⟩] else [] }

/-- A linkable graph with no links at all. -/
def emptySGraph : SGraph :=
  { outs := fun _ => []
    setProps := fun _ => []
    setOwner := fun _ => 0
    outLinksOf := fun _ => [] }

/-- A one-element property set: property 0 under key `"k"` and path `"a"`. -/
def demoSet : PSet :=
  { byKey := fun k => if k = "k" then some 0 else none
    properties := [0]
    propsByPath := fun q => if q = "a" then some 0 else none }

/-! ## Frame lemmas

The value cascade only writes `value`, `changed` and `lchanged`; every other
world component — the schema data and the two link lists — is untouched.  This
is what lets `canLinkFrom` results and link-list equations survive pushes. -/

/-- `w'` agrees with `w` on everything except possibly `value`, `changed` and
`lchanged`. -/
def Frame (w' w : World) : Prop :=
  w'.elements = w.elements ∧ w'.ptype = w.ptype ∧
  w'.objectType = w.objectType ∧ w'.multi = w.multi ∧
  w'.preset = w.preset ∧ w'.key = w.key ∧
  w'.owner = w.owner ∧ w'.isInput = w.isInput ∧
  w'.inLinks = w.inLinks ∧ w'.outLinks = w.outLinks

theorem Frame.refl (w : World) : Frame w w :=
  ⟨rfl, rfl, rfl, rfl, rfl, rfl, rfl, rfl, rfl, rfl⟩

theorem Frame.chain {w₁ w₂ w₃ : World} (h₁ : Frame w₁ w₂) (h₂ : Frame w₂ w₃) :
    Frame w₁ w₃ := by
  obtain ⟨a1, a2, a3, a4, a5, a6, a7, a8, a9, a10⟩ := h₁
  obtain ⟨b1, b2, b3, b4, b5, b6, b7, b8, b9, b10⟩ := h₂
  exact ⟨a1.trans b1, a2.trans b2, a3.trans b3, a4.trans b4, a5.trans b5,
    a6.trans b6, a7.trans b7, a8.trans b8, a9.trans b9, a10.trans b10⟩

theorem Frame.elements {w' w : World} (h : Frame w' w) :
    w'.elements = w.elements := h.1

theorem Frame.ptype {w' w : World} (h : Frame w' w) :
    w'.ptype = w.ptype := h.2.1

theorem Frame.objectType {w' w : World} (h : Frame w' w) :
    w'.objectType = w.objectType := h.2.2.1

theorem Frame.owner {w' w : World} (h : Frame w' w) :
    w'.owner = w.owner := h.2.2.2.2.2.2.1

theorem Frame.isInput {w' w : World} (h : Frame w' w) :
    w'.isInput = w.isInput := h.2.2.2.2.2.2.2.1

theorem Frame.inLinks {w' w : World} (h : Frame w' w) :
    w'.inLinks = w.inLinks := h.2.2.2.2.2.2.2.2.1

theorem Frame.outLinks {w' w : World} (h : Frame w' w) :
    w'.outLinks = w.outLinks := h.2.2.2.2.2.2.2.2.2

theorem writeProp_frame (w : World) (p : PropId) (v : Value) :
    Frame (w.writeProp p v) w :=
  ⟨rfl, rfl, rfl, rfl, rfl, rfl, rfl, rfl, rfl, rfl⟩

theorem flagProp_frame (w : World) (p : PropId) : Frame (w.flagProp p) w :=
  ⟨rfl, rfl, rfl, rfl, rfl, rfl, rfl, rfl, rfl, rfl⟩

theorem markOwner_frame (w : World) (p : PropId) : Frame (w.markOwner p) w := by
  unfold World.markOwner
  cases w.owner p with
  | none => exact Frame.refl w
  | some o => exact ⟨rfl, rfl, rfl, rfl, rfl, rfl, rfl, rfl, rfl, rfl⟩

theorem markOwner_value (w : World) (p : PropId) :
    (w.markOwner p).value = w.value := by
  unfold World.markOwner
  cases w.owner p <;> rfl

theorem markOwner_changed (w : World) (p : PropId) :
    (w.markOwner p).changed = w.changed := by
  unfold World.markOwner
  cases w.owner p <;> rfl

theorem foldl_frame {f : World → Link → World}
    (hf : ∀ w l, Frame (f w l) w) :
    ∀ (ls : List Link) (w : World), Frame (ls.foldl f w) w := by
  intro ls
  induction ls with
  | nil => intro w; exact Frame.refl w
  | cons l ls ih =>
      intro w
      exact Frame.chain (ih (f w l)) (hf w l)

theorem pushLink_frame :
    ∀ (fuel : Nat) (w : World) (l : Link), Frame (pushLink fuel w l) w := by
  intro fuel
  induction fuel with
  | zero => intro w l; exact Frame.refl w
  | succ fuel ih =>
      intro w l
      show Frame (pushLink (fuel + 1) w l) w
      unfold pushLink
      cases hd : l.destinationIndex with
      | none =>
          simp only [hd]
          exact Frame.chain
            (Frame.chain (markOwner_frame _ _) (foldl_frame ih _ _))
            (writeProp_frame ..)
      | some j =>
          simp only [hd]
          exact Frame.chain
            (Frame.chain (markOwner_frame _ _) (foldl_frame ih _ _))
            (Frame.chain (writeProp_frame ..) (flagProp_frame ..))

theorem setValue_frame (fuel : Nat) (w : World) (p : PropId) (v : Value) :
    Frame (setValue fuel w p v) w := by
  unfold setValue
  exact Frame.chain
    (Frame.chain (markOwner_frame _ _) (foldl_frame (pushLink_frame fuel) _ _))
    (writeProp_frame ..)

/-- `canLinkFrom` reads only the static schema components, so its verdict is
invariant under value pushes and link-list changes. -/
theorem canLinkFrom_congr {w' w : World} (he : w'.elements = w.elements)
    (ht : w'.ptype = w.ptype) (ho : w'.objectType = w.objectType)
    (hw : w'.owner = w.owner) (hi : w'.isInput = w.isInput)
    (dst src : PropId) (si di : Option Nat) :
    canLinkFrom w' dst src si di = canLinkFrom w dst src si di := by
  unfold canLinkFrom
  rw [he, ht, ho, hw, hi]

theorem pushInLink_inLinks_self (w : World) (p : PropId) (l : Link) :
    (pushInLink w p l).inLinks p = w.inLinks p ++ [l] := by
  simp [pushInLink]

theorem pushInLink_outLinks (w : World) (p : PropId) (l : Link) :
    (pushInLink w p l).outLinks = w.outLinks := rfl

theorem pushOutLink_inLinks (w : World) (p : PropId) (l : Link) :
    (pushOutLink w p l).inLinks = w.inLinks := rfl

theorem pushOutLink_outLinks_self (w : World) (p : PropId) (l : Link) :
    (pushOutLink w p l).outLinks p = w.outLinks p ++ [l] := by
  simp [pushOutLink]

theorem eraseInLink_inLinks_self (w : World) (p : PropId) (l : Link) :
    (eraseInLink w p l).inLinks p = (w.inLinks p).erase l := by
  simp [eraseInLink]

theorem eraseInLink_outLinks (w : World) (p : PropId) (l : Link) :
    (eraseInLink w p l).outLinks = w.outLinks := rfl

theorem eraseOutLink_inLinks (w : World) (p : PropId) (l : Link) :
    (eraseOutLink w p l).inLinks = w.inLinks := rfl

theorem eraseOutLink_outLinks_self (w : World) (p : PropId) (l : Link) :
    (eraseOutLink w p l).outLinks p = (w.outLinks p).erase l := by
  simp [eraseOutLink]

theorem map_ok_eq {ε α β : Type} (f : α → β) (x : α) :
    (Except.ok x : Except ε α).map f = .ok (f x) := rfl

/-- A property with no inbound links can always be reset; the reset touches
only values and changed flags. -/
theorem reset_ok_frame (fuel : Nat) (w : World) (p : PropId)
    (h : hasInLinks w p = false) :
    ∃ w', reset fuel w p = .ok w' ∧ Frame w' w := by
  unfold reset
  rw [h]
  simp only [Bool.false_eq_true, if_false]
  by_cases hm : isMulti w p = true
  · rw [if_pos hm]
    by_cases ht : (w.value p).truthy = true
    · simp only [ht, not_true, if_neg, Bool.not_true, Bool.false_eq_true,
        if_false]
      refine ⟨_, rfl, Frame.chain (setValue_frame ..) ?_⟩
      exact ⟨rfl, rfl, rfl, rfl, rfl, rfl, rfl, rfl, rfl, rfl⟩
    · simp only [Bool.not_eq_true] at ht
      simp only [ht, Bool.false_eq_true, not_false_iff, if_true]
      exact ⟨_, rfl, setValue_frame ..⟩
  · simp only [Bool.not_eq_true] at hm
    rw [hm]
    simp only [Bool.false_eq_true, if_false]
    exact ⟨_, rfl, setValue_frame ..⟩

/-- Spec §4.1(f): between primitive (non-object) types every conversion is
allowed. -/
theorem canConvert_of_ne_object {t1 t2 : PType} (h1 : t1 ≠ .object)
    (h2 : t2 ≠ .object) : canConvert t1 t2 = true := by
  cases t1 <;> cases t2 <;> simp_all [canConvert]

/-! ## Claims -/

/-- C4, counterexample: the claim says `canLinkFrom` returns `false` (rather
than raising) when an element index is supplied for a scalar side; on the code
the very call throws (`"non-array source property; can't link to element"`). -/
theorem canLinkFrom_scalar_index_raises_cex :
    canLinkFrom baseWorld 0 1 (some 0) none =
      Except.error "non-array source property; can't link to element" := rfl

/-- C4, amended: `canLinkFrom` raises an exception when an element index is
supplied for a scalar side; it returns `false` for whole-array element-count
mismatches, distinct object types and destinations in an outputs set, and
`true` for same-shape pairs of primitive (hence convertible) type. -/
theorem canLinkFrom_matrix (w : World) (dst src : PropId)
    (si di : Option Nat) (o : LId) (how : w.owner dst = some o) :
    (w.isInput dst = true → w.elements src = 1 → si.isSome = true →
      canLinkFrom w dst src si di =
        .error "non-array source property; can't link to element") ∧
    (w.isInput dst = true → ¬(w.elements src = 1 ∧ si.isSome = true) →
      w.elements dst = 1 → di.isSome = true →
      canLinkFrom w dst src si di =
        .error "non-array destination property; can't link to element") ∧
    (w.isInput dst = true → si = none → di = none →
      1 < w.elements src → 1 < w.elements dst →
      w.elements src ≠ w.elements dst →
      canLinkFrom w dst src si di = .ok false) ∧
    (w.isInput dst = true → si = none → di = none →
      w.elements src = w.elements dst →
      w.ptype src = .object → w.ptype dst = .object →
      w.objectType src ≠ w.objectType dst →
      canLinkFrom w dst src si di = .ok false) ∧
    (w.isInput dst = false → canLinkFrom w dst src si di = .ok false) ∧
    (w.isInput dst = true → si = none → di = none →
      w.elements src = w.elements dst →
      w.ptype src ≠ .object → w.ptype dst ≠ .object →
      canLinkFrom w dst src si di = .ok true) := by
  unfold canLinkFrom
  rw [how]
  dsimp only
  refine ⟨?_, ?_, ?_, ?_, ?_, ?_⟩
  · intro hin h1 hsi
    rw [if_neg (not_not_intro hin), if_pos ⟨h1, hsi⟩]
  · intro hin hno h1 hdi
    rw [if_neg (not_not_intro hin), if_neg hno, if_pos ⟨h1, hdi⟩]
  · intro hin hsi hdi h1 h2 hne
    subst hsi; subst hdi
    rw [if_neg (not_not_intro hin), if_neg (by simp), if_neg (by simp),
      if_neg (not_not_intro (iff_of_true ⟨h1, by simp⟩ ⟨h2, by simp⟩)),
      if_pos ⟨⟨h1, by simp⟩, hne⟩]
  · intro hin hsi hdi hel hts htd hne
    subst hsi; subst hdi
    rw [if_neg (not_not_intro hin), if_neg (by simp), if_neg (by simp),
      if_neg (not_not_intro (by rw [hel])),
      if_neg (fun h => h.2 hel), if_pos ⟨hts, htd, hne⟩]
  · intro hout
    rw [if_pos (by simp [hout])]
  · intro hin hsi hdi hel hts htd
    subst hsi; subst hdi
    rw [if_neg (not_not_intro hin), if_neg (by simp), if_neg (by simp),
      if_neg (not_not_intro (by rw [hel])),
      if_neg (fun h => h.2 hel), if_neg (fun h => hts h.1),
      canConvert_of_ne_object hts htd]

/-- C4, witness: the amended matrix at concrete worlds — a thrown error for a
scalar source with element index, `false` for 2-vs-3 whole-array links,
distinct object tags and an output-role destination, `true` for two scalar
numbers. -/
theorem canLinkFrom_matrix_witness :
    canLinkFrom baseWorld 0 1 (some 0) none =
      Except.error "non-array source property; can't link to element" ∧
    canLinkFrom arrWorld 0 1 none none = Except.ok false ∧
    canLinkFrom objWorld 0 1 none none = Except.ok false ∧
    canLinkFrom pairWorld 1 0 none none = Except.ok false ∧
    canLinkFrom baseWorld 0 1 none none = Except.ok true := by
  refine ⟨?_, ?_, ?_, ?_, ?_⟩
  · exact (canLinkFrom_matrix baseWorld 0 1 (some 0) none 0 rfl).1 rfl rfl rfl
  · exact (canLinkFrom_matrix arrWorld 0 1 none none 0 rfl).2.2.1 rfl rfl rfl
      (by decide) (by decide) (by decide)
  · exact (canLinkFrom_matrix objWorld 0 1 none none 0 rfl).2.2.2.1 rfl rfl rfl
      rfl rfl rfl (by decide)
  · exact (canLinkFrom_matrix pairWorld 1 0 none none 1 rfl).2.2.2.2.1 rfl
  · exact (canLinkFrom_matrix baseWorld 0 1 none none 0 rfl).2.2.2.2.2 rfl rfl
      rfl rfl (by decide) (by decide)

/-- C5, counterexample: the claim says `unlinkFrom` raises an
`UnknownLinkError` when no matching inbound link exists; on the code the call
returns normally with `false` (property 0 of `baseWorld` has no links at
all). -/
theorem unlinkFrom_no_match_cex :
    unlinkFrom 1 baseWorld 0 1 none none = Except.ok (baseWorld, false) := rfl

/-- C5, amended: `unlinkFrom` returns `false` (without raising) when no
inbound link matches the `(source, sourceIndex, destinationIndex)` triple;
when a match exists (and is registered on the source as every created link
is), it is removed from both endpoints and the call returns `true`. -/
theorem unlinkFrom_spec (fuel : Nat) (w : World) (dst src : PropId)
    (si di : Option Nat) :
    ((w.inLinks dst).find? (linkMatches src si di) = none →
      unlinkFrom fuel w dst src si di = .ok (w, false)) ∧
    (∀ l, (w.inLinks dst).find? (linkMatches src si di) = some l →
      l ∈ w.outLinks src →
      ∃ w', unlinkFrom fuel w dst src si di = .ok (w', true) ∧
        w'.inLinks dst = (w.inLinks dst).erase l ∧
        w'.outLinks src = (w.outLinks src).erase l) := by
  constructor
  · intro hf
    unfold unlinkFrom
    rw [hf]
  · intro l hf hmem
    have hlin : l ∈ w.inLinks dst := List.mem_of_find?_eq_some hf
    unfold unlinkFrom
    rw [hf]
    show ∃ w', (removeInLink fuel w dst l).bind
      (fun w1 => (removeOutLink w1 src l).bind
        (fun w2 => Except.ok (w2, true))) = Except.ok (w', true) ∧ _
    unfold removeInLink
    rw [if_pos hlin]
    by_cases hobj :
        ((eraseInLink w dst l).inLinks dst).length = 0 ∧ w.ptype dst = .object
    · rw [if_pos hobj]
      obtain ⟨w₂, hrs, hfr⟩ := reset_ok_frame fuel (eraseInLink w dst l) dst
        (by simp [hasInLinks, hobj.1])
      rw [hrs]
      have hmem₂ : l ∈ w₂.outLinks src := by
        rw [hfr.outLinks, eraseInLink_outLinks]
        exact hmem
      show ∃ w', (removeOutLink w₂ src l).bind
        (fun w2 => Except.ok (w2, true)) = Except.ok (w', true) ∧ _
      unfold removeOutLink
      rw [if_pos hmem₂]
      refine ⟨_, rfl, ?_, ?_⟩
      · rw [eraseOutLink_inLinks, hfr.inLinks, eraseInLink_inLinks_self]
      · rw [eraseOutLink_outLinks_self, hfr.outLinks, eraseInLink_outLinks]
    · rw [if_neg hobj]
      have hmem₁ : l ∈ (eraseInLink w dst l).outLinks src := hmem
      show ∃ w', (removeOutLink (eraseInLink w dst l) src l).bind
        (fun w2 => Except.ok (w2, true)) = Except.ok (w', true) ∧ _
      unfold removeOutLink
      rw [if_pos hmem₁]
      refine ⟨_, rfl, ?_, ?_⟩
      · rw [eraseOutLink_inLinks, eraseInLink_inLinks_self]
      · rw [eraseOutLink_outLinks_self, eraseInLink_outLinks]

/-- C5, witness: the amended behaviour at concrete worlds — `false` without an
exception on an unlinked property, and removal from both endpoints of the one
link of `linkedWorld`. -/
theorem unlinkFrom_spec_witness :
    unlinkFrom 1 baseWorld 0 1 none none = Except.ok (baseWorld, false) ∧
    (unlinkFrom 1 linkedWorld 0 1 none none).map
      (fun r => (r.1.inLinks 0, r.1.outLinks 1, r.2)) =
      Except.ok ([], [], true) := by
  constructor
  · exact (unlinkFrom_spec 1 baseWorld 0 1 none none).1 rfl
  · obtain ⟨w', h1, h2, h3⟩ :=
      (unlinkFrom_spec 1 linkedWorld 0 1 none none).2
        ⟨1, 0, none, none⟩ rfl (by decide)
    rw [h1]
    simp only [map_ok_eq]
    rw [h2, h3]
    rfl

/-- C6: the claim ("for a property with no inbound links, `reset()` restores
the preset value") is right and the code has a slip: for a multi property
whose multi array already exists, the local `value` variable is never
assigned, so `setValue(undefined)` runs and the property's value becomes
`undefined` instead of the preset `7`. -/
theorem reset_multi_undefined_bug :
    hasInLinks multiWorld 0 = false ∧
    multiWorld.preset 0 = Value.num 7 ∧
    (reset 1 multiWorld 0).map (fun w => w.value 0) =
      Except.ok Value.undefined :=
  ⟨rfl, rfl, rfl⟩

/-- C7, counterexample: the claim says at most one link per
`(source, sourceIndex, destinationIndex)` triple can exist and a second
identical `linkFrom` does not create a second link; on the code, calling
`linkFrom` twice with the same arguments leaves two identical links on the
destination's inbound list. -/
theorem linkFrom_duplicate_cex :
    ((linkFrom 1 pairWorld 0 1 none none).bind
      (fun w₁ => linkFrom 1 w₁ 0 1 none none)).map
      (fun w₂ => ((w₂.inLinks 0).filter (linkMatches 1 none none)).length) =
      Except.ok 2 := rfl

/-- C7, amended: `linkFrom` performs no duplicate check — `canLinkFrom`
ignores the existing link lists, so every successful call appends one more
identical link, and two equal calls add two links with the same triple. -/
theorem linkFrom_append_spec (fuel : Nat) (w : World) (dst src : PropId)
    (si di : Option Nat)
    (hca : canLinkFrom w dst src si di = .ok true) :
    ∃ w₁ w₂, linkFrom fuel w dst src si di = .ok w₁ ∧
      linkFrom fuel w₁ dst src si di = .ok w₂ ∧
      w₁.inLinks dst = w.inLinks dst ++ [⟨src, dst, si, di⟩] ∧
      w₂.inLinks dst = w.inLinks dst ++
        [⟨src, dst, si, di⟩, ⟨src, dst, si, di⟩] ∧
      (w₂.inLinks dst).countP (linkMatches src si di) =
        (w.inLinks dst).countP (linkMatches src si di) + 2 := by
  have hstep : ∀ v : World, canLinkFrom v dst src si di = .ok true →
      linkFrom fuel v dst src si di = .ok (pushLink fuel
        (pushOutLink (pushInLink v dst ⟨src, dst, si, di⟩) src
          ⟨src, dst, si, di⟩) ⟨src, dst, si, di⟩) := by
    intro v hv
    unfold linkFrom
    rw [hv]
  have h1 := hstep w hca
  have hfr1 : Frame (pushLink fuel
      (pushOutLink (pushInLink w dst ⟨src, dst, si, di⟩) src
        ⟨src, dst, si, di⟩) ⟨src, dst, si, di⟩)
      (pushOutLink (pushInLink w dst ⟨src, dst, si, di⟩) src
        ⟨src, dst, si, di⟩) := pushLink_frame ..
  have e1 : (pushLink fuel
      (pushOutLink (pushInLink w dst ⟨src, dst, si, di⟩) src
        ⟨src, dst, si, di⟩) ⟨src, dst, si, di⟩).inLinks dst =
      w.inLinks dst ++ [⟨src, dst, si, di⟩] := by
    rw [hfr1.inLinks, pushOutLink_inLinks, pushInLink_inLinks_self]
  have hca1 : canLinkFrom (pushLink fuel
      (pushOutLink (pushInLink w dst ⟨src, dst, si, di⟩) src
        ⟨src, dst, si, di⟩) ⟨src, dst, si, di⟩) dst src si di = .ok true := by
    rw [canLinkFrom_congr hfr1.elements hfr1.ptype hfr1.objectType
      hfr1.owner hfr1.isInput]
    exact (canLinkFrom_congr rfl rfl rfl rfl rfl dst src si di).trans hca
  have h2 := hstep _ hca1
  have hfr2 := pushLink_frame fuel
    (pushOutLink (pushInLink (pushLink fuel
      (pushOutLink (pushInLink w dst ⟨src, dst, si, di⟩) src
        ⟨src, dst, si, di⟩) ⟨src, dst, si, di⟩) dst ⟨src, dst, si, di⟩) src
      ⟨src, dst, si, di⟩) ⟨src, dst, si, di⟩
  have e2 : (pushLink fuel
      (pushOutLink (pushInLink (pushLink fuel
        (pushOutLink (pushInLink w dst ⟨src, dst, si, di⟩) src
          ⟨src, dst, si, di⟩) ⟨src, dst, si, di⟩) dst ⟨src, dst, si, di⟩) src
        ⟨src, dst, si, di⟩) ⟨src, dst, si, di⟩).inLinks dst =
      w.inLinks dst ++ [⟨src, dst, si, di⟩, ⟨src, dst, si, di⟩] := by
    rw [hfr2.inLinks, pushOutLink_inLinks, pushInLink_inLinks_self, e1,
      List.append_assoc]
    rfl
  refine ⟨_, _, h1, h2, e1, e2, ?_⟩
  rw [e2, List.countP_append]
  have hc2 : List.countP (linkMatches src si di)
      [(⟨src, dst, si, di⟩ : Link), ⟨src, dst, si, di⟩] = 2 := by
    simp [List.countP_cons, linkMatches]
  omega

/-- C7, witness: starting from the linkless `pairWorld`, two identical
`linkFrom` calls leave exactly the two-element duplicate inbound list. -/
theorem linkFrom_append_witness :
    ((linkFrom 1 pairWorld 0 1 none none).bind
      (fun w₁ => linkFrom 1 w₁ 0 1 none none)).map
      (fun w₂ => (w₂.inLinks 0).countP (linkMatches 1 none none)) =
      Except.ok 2 := by
  obtain ⟨w₁, w₂, h1, h2, -, -, hc⟩ :=
    linkFrom_append_spec 1 pairWorld 0 1 none none rfl
  rw [h1]
  show (linkFrom 1 w₁ 0 1 none none).map
    (fun w₂ => (w₂.inLinks 0).countP (linkMatches 1 none none)) =
    Except.ok 2
  rw [h2]
  simp only [map_ok_eq]
  rw [hc]
  rfl

/-- C8: the claim describes the object `toJSON` assembles (key always; value
exactly when no inbound links and not at the default; links exactly when
outbound links exist) but the method body never returns it, so `toJSON()`
evaluates to `undefined`: the code contradicts the obvious intent.  At the
failing input — a linkless property with key `"num0"` and non-default value
`13` — the assembled object is `{ key := "num0", value := 13 }`, yet the call
yields `undefined`. -/
theorem toJSON_missing_return_bug :
    Property.toJSON jsonWorld 0 = none ∧
    toJSONObject jsonWorld 0 =
      { key := "num0", value := some (Value.num 13), links := none } :=
  ⟨rfl, rfl⟩

/-- C10: `PropertySet.remove` deletes the key binding and the path index
entry (so `getProperty` on the path fails afterwards) but — because it calls
the non-mutating `slice` instead of `splice` — leaves the ordered `properties`
array unchanged: same list, still containing the removed property. -/
theorem PSet_remove_frame_spec (pkey ppath : PropId → String) (s : PSet)
    (p : PropId) (hk : s.byKey (pkey p) = some p) (hp : p ∈ s.properties) :
    ∃ s', PSet.remove pkey ppath s p = .ok s' ∧
      s'.byKey (pkey p) = none ∧
      s'.propsByPath (ppath p) = none ∧
      PSet.getProperty s' (ppath p) =
        .error ("no property found at path " ++ ppath p) ∧
      s'.properties = s.properties ∧
      p ∈ s'.properties ∧
      s'.properties.length = s.properties.length := by
  unfold PSet.remove
  rw [if_pos hk]
  refine ⟨_, rfl, by simp, by simp, ?_, rfl, hp, rfl⟩
  unfold PSet.getProperty
  simp

/-- C10, witness: removing property 0 from the one-element `demoSet` clears
the key and path bindings yet leaves the `properties` array as `[0]`. -/
theorem PSet_remove_witness :
    (PSet.remove (fun _ => "k") (fun _ => "a") demoSet 0).map
      (fun s' => (s'.byKey "k", s'.propsByPath "a", s'.properties)) =
      Except.ok (none, none, [0]) := by
  obtain ⟨s', h1, h2, h3, -, h5, -, -⟩ :=
    PSet_remove_frame_spec (fun _ => "k") (fun _ => "a") demoSet 0 rfl
      (by simp [demoSet])
  rw [h1]
  simp only [map_ok_eq]
  rw [h2, h3, h5]
  rfl

/-- C3: the update walk of `System.update` / `Module.update`, characterized at
the point where it reaches component `c` (having processed the prefix `pre` of
the sorted collection): `update()` is invoked exactly when `c`'s changed flag
is true in the state reached at that point — the step's result is then the
update effect followed by `resetChanged`, after which `c`'s changed flag and
the changed flags of all its input properties are false; when the flag is
false the step leaves the state untouched; and the walk then continues in
order with the rest of the collection. -/
theorem updateRun_visits_iff_changed (insOf : LId → List PropId)
    (upd : LId → SysState → SysState) (pre post : List LId) (c : LId)
    (st : SysState) :
    ((System.updateRun insOf upd pre st).cchanged c = true →
      System.updateRun insOf upd (pre ++ [c]) st =
        Component.resetChanged insOf c
          (upd c (System.updateRun insOf upd pre st)) ∧
      (System.updateRun insOf upd (pre ++ [c]) st).cchanged c = false ∧
      ∀ p ∈ insOf c,
        (System.updateRun insOf upd (pre ++ [c]) st).pchanged p = false) ∧
    ((System.updateRun insOf upd pre st).cchanged c = false →
      System.updateRun insOf upd (pre ++ [c]) st =
        System.updateRun insOf upd pre st) ∧
    System.updateRun insOf upd (pre ++ c :: post) st =
      System.updateRun insOf upd post
        (System.updateRun insOf upd (pre ++ [c]) st) := by
  have key : System.updateRun insOf upd (pre ++ [c]) st =
      System.updateStep insOf upd (System.updateRun insOf upd pre st) c := by
    unfold System.updateRun
    rw [List.foldl_append]
    rfl
  refine ⟨?_, ?_, ?_⟩
  · intro hc
    rw [key]
    unfold System.updateStep
    rw [if_pos hc]
    refine ⟨rfl, ?_, ?_⟩
    · simp [Component.resetChanged]
    · intro p hp
      simp [Component.resetChanged, hp]
  · intro hc
    rw [key]
    unfold System.updateStep
    rw [if_neg (by simp [hc])]
  · unfold System.updateRun
    rw [show pre ++ c :: post = (pre ++ [c]) ++ post by simp,
      List.foldl_append]

/-- C3, witness: one component `3` (inputs `[5]`) with an identity update
body, starting with all flags set: after the walk both the component flag and
the input property flag are cleared. -/
theorem updateRun_witness :
    (System.updateRun (fun _ => [5]) (fun _ st => st) [3]
      ⟨fun _ => true, fun _ => true⟩).cchanged 3 = false ∧
    (System.updateRun (fun _ => [5]) (fun _ st => st) [3]
      ⟨fun _ => true, fun _ => true⟩).pchanged 5 = false := by
  have h := (updateRun_visits_iff_changed (fun _ => [5]) (fun _ st => st)
    [] [] 3 ⟨fun _ => true, fun _ => true⟩).1 rfl
  exact ⟨h.2.1, h.2.2 5 (by simp)⟩

/-- With no links at all, `visit` simply moves a fresh linkable from neither
list to the head of both `visited` and `sorted`. -/
theorem visit_nolinks (g : SGraph) (h0 : ∀ a, g.outs a = []) (fuel : Nat)
    (hf : 0 < fuel) (st : SorterSt) (a : LId)
    (hv : a ∉ st.visited) (hvg : a ∉ st.visiting) :
    LinkableSorter.visit g fuel st a =
      ⟨a :: st.visited, st.visiting, a :: st.sorted⟩ := by
  obtain ⟨f, rfl⟩ : ∃ f, fuel = f + 1 := ⟨fuel - 1, by omega⟩
  unfold LinkableSorter.visit
  rw [if_neg (by simp [hv, hvg])]
  have hs : sorterSuccs g a = [] := by simp [sorterSuccs, h0]
  simp only [hs, List.foldl_nil]
  simp [List.erase_cons_head]

/-- Folding `visit` over a duplicate-free list of fresh linkables in a
link-free graph prepends them to `visited`/`sorted` in reverse supply order. -/
theorem sortFold_nolinks (g : SGraph) (h0 : ∀ a, g.outs a = []) (fuel : Nat)
    (hf : 0 < fuel) :
    ∀ (xs : List LId) (st : SorterSt), xs.Nodup →
      (∀ a ∈ xs, a ∉ st.visited ∧ a ∉ st.visiting) →
      xs.foldl (fun s b => LinkableSorter.visit g fuel s b) st =
        ⟨xs.reverse ++ st.visited, st.visiting, xs.reverse ++ st.sorted⟩ := by
  intro xs
  induction xs with
  | nil => intro st _ _; rfl
  | cons x xs ih =>
      intro st hnd hfresh
      have hx : x ∉ xs := (List.nodup_cons.mp hnd).1
      simp only [List.foldl_cons]
      rw [visit_nolinks g h0 fuel hf st x (hfresh x (List.mem_cons_self x xs)).1
        (hfresh x (List.mem_cons_self x xs)).2]
      rw [ih ⟨x :: st.visited, st.visiting, x :: st.sorted⟩
        (List.nodup_cons.mp hnd).2 ?_]
      · simp [List.reverse_cons, List.append_assoc]
      · intro a ha
        constructor
        · simp only [List.mem_cons, not_or]
          exact ⟨fun h => hx (h ▸ ha),
            (hfresh a (List.mem_cons_of_mem x ha)).1⟩
        · exact (hfresh a (List.mem_cons_of_mem x ha)).2

/-- C9, counterexample: for two unlinked linkables the sorter reverses the
supplied order, so applying `sort` to its own output does not reproduce it:
`sort [0, 1] = [1, 0]` but `sort (sort [0, 1]) = [0, 1]`. -/
theorem sort_not_idempotent_cex :
    LinkableSorter.sort emptySGraph 4
        (LinkableSorter.sort emptySGraph 4 [0, 1]) ≠
      LinkableSorter.sort emptySGraph 4 [0, 1] := by decide

/-- C9, amended: `sort` is a pure, deterministic function of its input, but it
is not idempotent — on a collection with no links it emits the linkables in
reverse supply order, so re-sorting its own output restores the original
order (`sort (sort xs) = xs`, which differs from `sort xs` whenever the
reversal moves anything). -/
theorem sort_nolinks_reverse (g : SGraph) (xs : List LId) (fuel : Nat)
    (h0 : ∀ a, g.outs a = []) (hnd : xs.Nodup) (hf : 0 < fuel) :
    LinkableSorter.sort g fuel xs = xs.reverse ∧
    LinkableSorter.sort g fuel (LinkableSorter.sort g fuel xs) = xs := by
  have hs : ∀ ys : List LId, ys.Nodup →
      LinkableSorter.sort g fuel ys = ys.reverse := by
    intro ys hnd'
    unfold LinkableSorter.sort
    rw [sortFold_nolinks g h0 fuel hf ys ⟨[], [], []⟩ hnd' (by simp)]
    simp
  refine ⟨hs xs hnd, ?_⟩
  rw [hs xs hnd, hs xs.reverse (List.nodup_reverse.mpr hnd),
    List.reverse_reverse]

/-- C9, witness: the amended statement at the two-element link-free
collection. -/
theorem sort_nolinks_witness :
    LinkableSorter.sort emptySGraph 4 [0, 1] = [1, 0] ∧
    LinkableSorter.sort emptySGraph 4
      (LinkableSorter.sort emptySGraph 4 [0, 1]) = [0, 1] := by
  have h := sort_nolinks_reverse emptySGraph [0, 1] 4 (fun _ => rfl)
    (by decide) (by decide)
  exact ⟨h.1, h.2⟩

/-! ## Topological validity of the sorter (C2)

`SPath g a b k` is a `k`-step walk in the dependency relation the sorter
traverses (`sorterSuccs`).  The acyclicity-plus-sufficient-fuel assumption is
expressed as "every walk is shorter than the fuel": on a finite acyclic graph
such a fuel exists, and conversely any cycle pumps walks of unbounded length,
so the assumption is exactly acyclicity with enough fuel. -/

/-- `b` is reachable from `a` in exactly `k` steps of the sorter's
dependency relation. -/
inductive SPath (g : SGraph) : LId → LId → Nat → Prop where
  | refl (a : LId) : SPath g a a 0
  | step {a b c : LId} {k : Nat} (hb : b ∈ sorterSuccs g a)
      (hp : SPath g b c k) : SPath g a c (k + 1)

theorem SPath.append {g : SGraph} {a b c : LId} {m n : Nat}
    (h1 : SPath g a b m) (h2 : SPath g b c n) : SPath g a c (m + n) := by
  induction h1 with
  | refl _ => rw [Nat.zero_add]; exact h2
  | step hb _ ih =>
      rw [Nat.add_right_comm]
      exact SPath.step hb (ih h2)

theorem SPath.pump {g : SGraph} {a : LId} {m : Nat} (h : SPath g a a m) :
    ∀ j, SPath g a a (j * m)
  | 0 => by
      have h0 : SPath g a a 0 := SPath.refl a
      simpa using h0
  | j + 1 => by
      have := SPath.append (SPath.pump h j) h
      simpa [Nat.succ_mul] using this

/-- A link from an output property of linkable `a` to a property owned (via
its containing set) by linkable `b` — the edges the sorter must order. -/
def LinkEdge (g : SGraph) (a b : LId) : Prop :=
  ∃ p ∈ g.outs a, ∃ l ∈ g.outLinksOf p, g.setOwner l.destination = b

theorem LinkEdge.mem_succs {g : SGraph} {a b : LId} (h : LinkEdge g a b) :
    b ∈ sorterSuccs g a := by
  obtain ⟨p, hp, l, hl, rfl⟩ := h
  unfold sorterSuccs
  simp only [List.mem_flatMap, List.mem_append, List.mem_map,
    List.mem_singleton]
  exact ⟨p, hp, l, hl, Or.inr rfl⟩

/-- The sorter's loop invariant: `visited` and `sorted` coincide, the emitted
list is duplicate-free, nothing on the `visiting` stack has been emitted, and
every emitted linkable strictly precedes each of its dependents in the
emitted list. -/
def SorterInv (g : SGraph) (st : SorterSt) : Prop :=
  st.visited = st.sorted ∧
  st.sorted.Nodup ∧
  (∀ c ∈ st.visiting, c ∉ st.sorted) ∧
  (∀ x ∈ st.sorted, ∀ b ∈ sorterSuccs g x,
    b ∈ st.sorted ∧ List.indexOf x st.sorted < List.indexOf b st.sorted)

theorem visit_eq_of_fresh (g : SGraph) (f : Nat) (st : SorterSt) (a : LId)
    (h : ¬(a ∈ st.visited ∨ a ∈ st.visiting)) :
    LinkableSorter.visit g (f + 1) st a =
      (let st2 := (sorterSuccs g a).foldl
        (fun s b => LinkableSorter.visit g f s b)
        { st with visiting := a :: st.visiting }
      ⟨a :: st2.visited, st2.visiting.erase a, a :: st2.sorted⟩) := by
  rw [LinkableSorter.visit, if_neg h]

/-- Correctness of one `visit` call under acyclicity: the invariant is
preserved, the `visiting` stack is restored, the emitted list only grows by
prepending, and the visited linkable ends up emitted. -/
theorem visit_correct (g : SGraph) : ∀ (fuel : Nat) (st : SorterSt) (a : LId),
    SorterInv g st →
    (∀ c ∈ st.visiting, ∃ k, 1 ≤ k ∧ SPath g c a k) →
    (∀ x k, SPath g a x k → k < fuel) →
    SorterInv g (LinkableSorter.visit g fuel st a) ∧
    (LinkableSorter.visit g fuel st a).visiting = st.visiting ∧
    (∃ pre, (LinkableSorter.visit g fuel st a).sorted = pre ++ st.sorted) ∧
    a ∈ (LinkableSorter.visit g fuel st a).sorted := by
  intro fuel
  induction fuel with
  | zero =>
      intro st a _ _ hfa
      exact absurd (hfa a 0 (SPath.refl a)) (by omega)
  | succ f ih =>
      intro st a hinv hanc hfa
      by_cases hguard : a ∈ st.visited ∨ a ∈ st.visiting
      · have heq : LinkableSorter.visit g (f + 1) st a = st := by
          unfold LinkableSorter.visit
          rw [if_pos hguard]
        rw [heq]
        refine ⟨hinv, rfl, ⟨[], rfl⟩, ?_⟩
        rcases hguard with h | h
        · exact hinv.1 ▸ h
        · exfalso
          obtain ⟨k, hk1, hp⟩ := hanc a h
          have hmul := SPath.pump hp (f + 2)
          have hlt := hfa a ((f + 2) * k) hmul
          have : f + 2 ≤ (f + 2) * k := Nat.le_mul_of_pos_right _ (by omega)
          omega
      · have ha1 : a ∉ st.visited := fun h => hguard (Or.inl h)
        have ha2 : a ∉ st.visiting := fun h => hguard (Or.inr h)
        have ha1s : a ∉ st.sorted := hinv.1 ▸ ha1
        have hinv1 : SorterInv g { st with visiting := a :: st.visiting } := by
          refine ⟨hinv.1, hinv.2.1, ?_, hinv.2.2.2⟩
          intro c hc
          rcases List.mem_cons.mp hc with rfl | hc'
          · exact ha1s
          · exact hinv.2.2.1 c hc'
        have hfold : ∀ ls : List LId, (∀ b ∈ ls, b ∈ sorterSuccs g a) →
            ∀ s : SorterSt, SorterInv g s → s.visiting = a :: st.visiting →
            SorterInv g (ls.foldl (fun s b => LinkableSorter.visit g f s b) s) ∧
            (ls.foldl (fun s b => LinkableSorter.visit g f s b) s).visiting =
              a :: st.visiting ∧
            (∃ pre, (ls.foldl (fun s b => LinkableSorter.visit g f s b)
              s).sorted = pre ++ s.sorted) ∧
            (∀ b ∈ ls, b ∈ (ls.foldl
              (fun s b => LinkableSorter.visit g f s b) s).sorted) := by
          intro ls
          induction ls with
          | nil =>
              intro _ s hs hvis
              exact ⟨hs, hvis, ⟨[], rfl⟩, by simp⟩
          | cons b bs ihl =>
              intro hmem s hs hvis
              have hedge : b ∈ sorterSuccs g a :=
                hmem b (List.mem_cons_self b bs)
              have hancb : ∀ c ∈ s.visiting, ∃ k, 1 ≤ k ∧ SPath g c b k := by
                rw [hvis]
                intro c hc
                rcases List.mem_cons.mp hc with rfl | hc'
                · exact ⟨1, Nat.le_refl 1, SPath.step hedge (SPath.refl b)⟩
                · obtain ⟨k, hk, hp⟩ := hanc c hc'
                  exact ⟨k + 1, by omega,
                    SPath.append hp (SPath.step hedge (SPath.refl b))⟩
              have hfb : ∀ x k, SPath g b x k → k < f := by
                intro x k hp
                have := hfa x (k + 1) (SPath.step hedge hp)
                omega
              obtain ⟨hinv', hvis', ⟨pre1, hsort'⟩, hbmem⟩ := ih s b hs hancb hfb
              have hvis'' : (LinkableSorter.visit g f s b).visiting =
                  a :: st.visiting := hvis' ▸ hvis
              obtain ⟨hinv2, hvis2, ⟨pre2, hsort2⟩, hmem2⟩ :=
                ihl (fun x hx => hmem x (List.mem_cons_of_mem b hx))
                  (LinkableSorter.visit g f s b) hinv' hvis''
              refine ⟨hinv2, hvis2, ⟨pre2 ++ pre1, ?_⟩, ?_⟩
              · rw [List.foldl_cons] at *
                rw [hsort2, hsort', List.append_assoc]
              · intro x hx
                rcases List.mem_cons.mp hx with rfl | hx'
                · rw [List.foldl_cons, hsort2]
                  exact List.mem_append_right _ hbmem
                · rw [List.foldl_cons]
                  exact hmem2 x hx'
        obtain ⟨hinv2, hvis2, ⟨pre2, hsort2⟩, hallsucc⟩ :=
          hfold (sorterSuccs g a) (fun _ hb => hb)
            { st with visiting := a :: st.visiting } hinv1 rfl
        rw [visit_eq_of_fresh g f st a hguard]
        set st2 := (sorterSuccs g a).foldl
          (fun s b => LinkableSorter.visit g f s b)
          { st with visiting := a :: st.visiting } with hst2
        have hanotin : a ∉ st2.sorted := by
          have : a ∈ st2.visiting := by
            rw [hvis2]
            exact List.mem_cons_self a st.visiting
          exact hinv2.2.2.1 a this
        have hvisend : st2.visiting.erase a = st.visiting := by
          rw [hvis2]
          exact List.erase_cons_head a st.visiting
        refine ⟨⟨?_, ?_, ?_, ?_⟩, hvisend, ⟨a :: pre2, ?_⟩, ?_⟩
        · show a :: st2.visited = a :: st2.sorted
          rw [hinv2.1]
        · exact List.nodup_cons.mpr ⟨hanotin, hinv2.2.1⟩
        · show ∀ c ∈ st2.visiting.erase a, c ∉ a :: st2.sorted
          rw [hvisend]
          intro c hc
          have hcs : c ∉ st2.sorted := by
            apply hinv2.2.2.1
            rw [hvis2]
            exact List.mem_cons_of_mem a hc
          have hca : c ≠ a := fun h => ha2 (h ▸ hc)
          simp only [List.mem_cons, not_or]
          exact ⟨hca, hcs⟩
        · show ∀ x ∈ a :: st2.sorted, ∀ b ∈ sorterSuccs g x,
            b ∈ a :: st2.sorted ∧
            List.indexOf x (a :: st2.sorted) < List.indexOf b (a :: st2.sorted)
          intro x hx b hb
          rcases List.mem_cons.mp hx with rfl | hx'
          · have hbmem : b ∈ st2.sorted := hallsucc b hb
            have hba : b ≠ x := fun h => hanotin (h ▸ hbmem)
            constructor
            · exact List.mem_cons_of_mem x hbmem
            · rw [List.indexOf_cons_self, List.indexOf_cons_ne _ hba.symm]
              exact Nat.succ_pos _
          · obtain ⟨hbm, hlt⟩ := hinv2.2.2.2 x hx' b hb
            have hxa : x ≠ a := fun h => hanotin (h ▸ hx')
            have hba : b ≠ a := fun h => hanotin (h ▸ hbm)
            constructor
            · exact List.mem_cons_of_mem a hbm
            · rw [List.indexOf_cons_ne _ hxa.symm,
                List.indexOf_cons_ne _ hba.symm]
              exact Nat.succ_lt_succ hlt
        · show a :: st2.sorted = (a :: pre2) ++ st.sorted
          rw [List.cons_append, hsort2]
        · exact List.mem_cons_self a st2.sorted

/-- C2: for acyclic linkable graphs (fuel dominating every dependency walk),
the order returned by `LinkableSorter.sort` places producers before
consumers: for every link from an output property of linkable `a` to a
property of linkable `b`, if `a` was supplied to the sorter then both appear
in the result and `a`'s index is strictly smaller than `b`'s. -/
theorem sorter_topological_valid (g : SGraph) (fuel : Nat) (xs : List LId)
    (hbound : ∀ x y k, SPath g x y k → k < fuel)
    (a b : LId) (hedge : LinkEdge g a b) (ha : a ∈ xs) :
    a ∈ LinkableSorter.sort g fuel xs ∧
    b ∈ LinkableSorter.sort g fuel xs ∧
    List.indexOf a (LinkableSorter.sort g fuel xs) <
      List.indexOf b (LinkableSorter.sort g fuel xs) := by
  have htop : ∀ (ys : List LId) (st : SorterSt), SorterInv g st →
      st.visiting = [] →
      SorterInv g (ys.foldl (fun s x => LinkableSorter.visit g fuel s x) st) ∧
      (ys.foldl (fun s x => LinkableSorter.visit g fuel s x) st).visiting
        = [] ∧
      (∀ x ∈ ys, x ∈ (ys.foldl
        (fun s x => LinkableSorter.visit g fuel s x) st).sorted) := by
    intro ys
    induction ys with
    | nil => intro st hs hv; exact ⟨hs, hv, by simp⟩
    | cons y ys ihy =>
        intro st hs hv
        have hanc : ∀ c ∈ st.visiting, ∃ k, 1 ≤ k ∧ SPath g c y k := by
          rw [hv]; intro c hc; cases hc
        obtain ⟨hinv', hvis', ⟨pre1, hsort'⟩, hymem⟩ :=
          visit_correct g fuel st y hs hanc (fun x k hp => hbound y x k hp)
        have hvis'' : (LinkableSorter.visit g fuel st y).visiting = [] :=
          hvis' ▸ hv
        obtain ⟨hinv2, hvis2, hmem2⟩ :=
          ihy (LinkableSorter.visit g fuel st y) hinv' hvis''
        refine ⟨hinv2, hvis2, ?_⟩
        intro x hx
        rcases List.mem_cons.mp hx with rfl | hx'
        · rw [List.foldl_cons]
          -- x's membership survives the remaining folds, which only prepend
          have hmono : ∀ (zs : List LId) (s : SorterSt), SorterInv g s →
              s.visiting = [] → ∀ c ∈ s.sorted, c ∈ (zs.foldl
                (fun s x => LinkableSorter.visit g fuel s x) s).sorted := by
            intro zs
            induction zs with
            | nil => intro s _ _ c hc; exact hc
            | cons z zs ihz =>
                intro s hs' hv' c hc
                have hanc' : ∀ d ∈ s.visiting, ∃ k, 1 ≤ k ∧ SPath g d z k := by
                  rw [hv']; intro d hd; cases hd
                obtain ⟨hinv3, hvis3, ⟨pre3, hsort3⟩, -⟩ :=
                  visit_correct g fuel s z hs' hanc'
                    (fun x k hp => hbound z x k hp)
                have hvis4 : (LinkableSorter.visit g fuel s z).visiting = [] :=
                  hvis3 ▸ hv'
                rw [List.foldl_cons]
                exact ihz (LinkableSorter.visit g fuel s z) hinv3 hvis4 c
                  (by rw [hsort3]; exact List.mem_append_right _ hc)
          exact hmono ys (LinkableSorter.visit g fuel st x) hinv' hvis'' x hymem
        · rw [List.foldl_cons]
          exact hmem2 x hx'
  obtain ⟨hinvf, -, hmemf⟩ := htop xs ⟨[], [], []⟩
    ⟨rfl, List.nodup_nil, by simp, by simp⟩ rfl
  have hares : a ∈ LinkableSorter.sort g fuel xs := hmemf a ha
  have := hinvf.2.2.2 a hares b (LinkEdge.mem_succs hedge)
  exact ⟨hares, this.1, this.2⟩

/-- In a graph where no successor has successors of its own, every dependency
walk is shorter than 3. -/
theorem spath_bound_of_flat (g : SGraph)
    (h : ∀ x, ∀ b ∈ sorterSuccs g x, sorterSuccs g b = []) :
    ∀ x y k, SPath g x y k → k < 3 := by
  intro x y k hp
  rcases hp with _ | ⟨hb, hp'⟩
  · omega
  · rcases hp' with _ | ⟨hb2, -⟩
    · omega
    · rw [h x _ hb] at hb2
      cases hb2

/-- C2, witness: in the two-linkable graph with the single link `10 → 11`,
the sorter emits producer 0 strictly before consumer 1. -/
theorem sorter_topological_valid_witness :
    0 ∈ LinkableSorter.sort linkedSGraph 3 [0, 1] ∧
    1 ∈ LinkableSorter.sort linkedSGraph 3 [0, 1] ∧
    List.indexOf 0 (LinkableSorter.sort linkedSGraph 3 [0, 1]) <
      List.indexOf 1 (LinkableSorter.sort linkedSGraph 3 [0, 1]) := by
  have hflat : ∀ x, ∀ b ∈ sorterSuccs linkedSGraph x,
      sorterSuccs linkedSGraph b = [] := by
    intro x b hb
    by_cases hx : x = 0
    · subst hx
      have hsucc : sorterSuccs linkedSGraph 0 = [1] := by decide
      rw [hsucc, List.mem_singleton] at hb
      subst hb
      decide
    · exfalso
      have : sorterSuccs linkedSGraph x = [] := by
        simp [sorterSuccs, linkedSGraph, hx]
      rw [this] at hb
      cases hb
  exact sorter_topological_valid linkedSGraph 3 [0, 1]
    (spath_bound_of_flat linkedSGraph hflat) 0 1
    ⟨10, by decide, ⟨10, 11, none, none⟩, by decide, by decide⟩ (by decide)

/-! ## Synchronous propagation of `setValue` (C1)

`LPath out p q k` is a `k`-step forward-link walk between properties using
the outbound-link tables `out`; `Chain out p cs q` records the traversed
links `cs` themselves, making the element indices along the route visible.
The cascade is analysed twice.  For whole-value links
(`sourceIndex = destinationIndex = none`) "the propagated value" of the spec
is the written value itself, and propagation holds on arbitrary acyclic
graphs, converging routes included.  For links with arbitrary element
indices the value arriving at a property is the composition of the
per-link slicing steps along its route (`chainValue`); this is a
well-defined single value exactly when each reachable property is fed
through one route (`UniqueRouting` — when several conflicting routes write
the same destination slot, the cascade keeps whichever push ran last, so
the spec's definite article has no referent).  Both analyses require each
link to be registered on its own source, which `Property.addOutLink`
enforces with a thrown error. -/

/-- Property `r` is reachable from `p` in exactly `k` forward links. -/
inductive LPath (out : PropId → List Link) : PropId → PropId → Nat → Prop where
  | refl (p : PropId) : LPath out p p 0
  | step {p r : PropId} {k : Nat} (l : Link) (hl : l ∈ out p)
      (hp : LPath out l.destination r k) : LPath out p r (k + 1)

theorem LPath.glue {out : PropId → List Link} {a b c : PropId} {m n : Nat}
    (h1 : LPath out a b m) (h2 : LPath out b c n) : LPath out a c (m + n) := by
  induction h1 with
  | refl _ => rw [Nat.zero_add]; exact h2
  | step l hl _ ih =>
      rw [Nat.add_right_comm]
      exact LPath.step l hl (ih h2)

theorem LPath.iterate {out : PropId → List Link} {a : PropId} {m : Nat}
    (h : LPath out a a m) : ∀ j, LPath out a a (j * m)
  | 0 => by
      have h0 : LPath out a a 0 := LPath.refl a
      simpa using h0
  | j + 1 => by
      have := LPath.glue (LPath.iterate h j) h
      simpa [Nat.succ_mul] using this

/-- No property can be on a nontrivial forward-link cycle when all walk
lengths are bounded. -/
theorem LPath.no_cycle {out : PropId → List Link} {a : PropId} {fuel m : Nat}
    (hb : ∀ q k, LPath out a q k → k ≤ fuel)
    (hcy : LPath out a a m) : m = 0 := by
  by_contra hm
  have hmul := LPath.iterate hcy (fuel + 1)
  have hlt := hb a ((fuel + 1) * m) hmul
  have : fuel + 1 ≤ (fuel + 1) * m := Nat.le_mul_of_pos_right _ (by omega)
  omega

/-- Well-formed whole-value link tables: every registered outbound link names
its host property as source (enforced by `addOutLink`) and carries no element
indices. -/
def LinksWF (out : PropId → List Link) : Prop :=
  ∀ p l, l ∈ out p →
    l.source = p ∧ l.sourceIndex = none ∧ l.destinationIndex = none

/-- A push only writes values and changed flags of properties reachable from
the link's destination: everything else is untouched. -/
theorem pushLink_stable :
    ∀ (fuel : Nat) (w : World) (l : Link) (q : PropId),
      (∀ k, ¬ LPath w.outLinks l.destination q k) →
      (pushLink fuel w l).value q = w.value q ∧
      (pushLink fuel w l).changed q = w.changed q := by
  intro fuel
  induction fuel with
  | zero => intro w l q _; exact ⟨rfl, rfl⟩
  | succ f ih =>
      intro w l q hq
      have hqd : q ≠ l.destination := by
        intro h
        exact hq 0 (h ▸ LPath.refl q)
      have hfold : ∀ (ls : List Link) (w' : World),
          w'.outLinks = w.outLinks →
          (∀ l' ∈ ls, l' ∈ w.outLinks l.destination) →
          (ls.foldl (fun a b => pushLink f a b) w').value q = w'.value q ∧
          (ls.foldl (fun a b => pushLink f a b) w').changed q =
            w'.changed q := by
        intro ls
        induction ls with
        | nil => intro w' _ _; exact ⟨rfl, rfl⟩
        | cons l' ls' ihl =>
            intro w' hout hsub
            have hq' : ∀ k, ¬ LPath w'.outLinks l'.destination q k := by
              rw [hout]
              intro k hk
              exact hq (k + 1)
                (LPath.step l' (hsub l' (List.mem_cons_self l' ls')) hk)
            have hstep := ih w' l' q hq'
            have hout' : (pushLink f w' l').outLinks = w.outLinks :=
              (pushLink_frame f w' l').outLinks.trans hout
            have hrec := ihl (pushLink f w' l') hout'
              (fun x hx => hsub x (List.mem_cons_of_mem l' hx))
            exact ⟨by rw [List.foldl_cons, hrec.1, hstep.1],
              by rw [List.foldl_cons, hrec.2, hstep.2]⟩
      rw [pushLink]
      cases hdi : l.destinationIndex with
      | none =>
          simp only
          have h1 := hfold
            ((w.writeProp l.destination (linkSourceValue w l)).outLinks
              l.destination)
            (w.writeProp l.destination (linkSourceValue w l)) rfl
            (fun x hx => hx)
          constructor
          · rw [markOwner_value, h1.1]
            simp [World.writeProp, hqd]
          · rw [markOwner_changed, h1.2]
            simp [World.writeProp, hqd]
      | some j =>
          simp only
          have h1 := hfold
            (((w.flagProp l.destination).writeProp l.destination
              ((w.value l.destination).setIdx j
                (linkSourceValue w l))).outLinks l.destination)
            ((w.flagProp l.destination).writeProp l.destination
              ((w.value l.destination).setIdx j (linkSourceValue w l))) rfl
            (fun x hx => hx)
          constructor
          · rw [markOwner_value, h1.1]
            simp [World.writeProp, World.flagProp, hqd]
          · rw [markOwner_changed, h1.2]
            simp [World.writeProp, World.flagProp, hqd]

/-- The remaining folds of a push loop leave a property untouched when it is
unreachable from every remaining link's destination. -/
theorem foldl_pushLink_stable (fuel : Nat) :
    ∀ (ls : List Link) (w : World) (q : PropId),
      (∀ l' ∈ ls, ∀ k, ¬ LPath w.outLinks l'.destination q k) →
      (ls.foldl (fun a b => pushLink fuel a b) w).value q = w.value q ∧
      (ls.foldl (fun a b => pushLink fuel a b) w).changed q = w.changed q := by
  intro ls
  induction ls with
  | nil => intro w q _; exact ⟨rfl, rfl⟩
  | cons l' ls' ihl =>
      intro w q h
      have hstep := pushLink_stable fuel w l' q
        (h l' (List.mem_cons_self l' ls'))
      have hrec := ihl (pushLink fuel w l') q (by
        rw [(pushLink_frame fuel w l').outLinks]
        exact fun x hx => h x (List.mem_cons_of_mem l' hx))
      exact ⟨by rw [List.foldl_cons, hrec.1, hstep.1],
        by rw [List.foldl_cons, hrec.2, hstep.2]⟩

/-- A single `pushLink` call with the given fuel carries the source value to
every property reachable from the link's destination. -/
def PushPropagates (fuel : Nat) : Prop :=
  ∀ (w : World) (l : Link) (v : Value),
    LinksWF w.outLinks →
    l.sourceIndex = none → l.destinationIndex = none →
    w.value l.source = v →
    (∀ q k, LPath w.outLinks l.destination q k → k < fuel) →
    ∀ q k, LPath w.outLinks l.destination q k →
      (pushLink fuel w l).value q = v ∧ (pushLink fuel w l).changed q = true

/-- The push loop over a property `d`'s outbound links: if single pushes
propagate, then the loop leaves the link structure alone, keeps `d`'s value,
and carries `v` into every property reachable through any of the looped
links. -/
theorem foldl_push_propagates (fuel : Nat) (hp : PushPropagates fuel)
    (d : PropId) (v : Value) :
    ∀ (ls : List Link) (w : World),
      LinksWF w.outLinks →
      (∀ l' ∈ ls, l' ∈ w.outLinks d) →
      (∀ q k, LPath w.outLinks d q k → k ≤ fuel) →
      w.value d = v →
      Frame (ls.foldl (fun a b => pushLink fuel a b) w) w ∧
      (ls.foldl (fun a b => pushLink fuel a b) w).value d = v ∧
      (∀ l' ∈ ls, ∀ q k, LPath w.outLinks l'.destination q k →
        (ls.foldl (fun a b => pushLink fuel a b) w).value q = v ∧
        (ls.foldl (fun a b => pushLink fuel a b) w).changed q = true) := by
  intro ls
  induction ls with
  | nil =>
      intro w _ _ _ hv
      exact ⟨Frame.refl w, hv, by simp⟩
  | cons l' ls' ihl =>
      intro w hwf hsub hbd hv
      simp only [List.foldl_cons]
      have hl'dmem : l' ∈ w.outLinks d := hsub l' (List.mem_cons_self l' ls')
      obtain ⟨hsrc', hsi', hdi'⟩ := hwf d l' hl'dmem
      have hv' : w.value l'.source = v := by rw [hsrc']; exact hv
      have hb' : ∀ q k, LPath w.outLinks l'.destination q k → k < fuel := by
        intro q k hk
        have := hbd q (k + 1) (LPath.step l' hl'dmem hk)
        omega
      have hpush := hp w l' v hwf hsi' hdi' hv' hb'
      have hfr : Frame (pushLink fuel w l') w := pushLink_frame ..
      have hout : (pushLink fuel w l').outLinks = w.outLinks := hfr.outLinks
      have hdnotreach : ∀ k, ¬ LPath w.outLinks l'.destination d k := by
        intro k hk
        have hcy : LPath w.outLinks d d (k + 1) := LPath.step l' hl'dmem hk
        have := LPath.no_cycle hbd hcy
        omega
      have hstab := pushLink_stable fuel w l' d hdnotreach
      have hvmid : (pushLink fuel w l').value d = v := by
        rw [hstab.1]; exact hv
      obtain ⟨hfr2, hvfin, hprop2⟩ := ihl (pushLink fuel w l')
        (by rw [hout]; exact hwf)
        (fun x hx => by
          rw [hout]; exact hsub x (List.mem_cons_of_mem l' hx))
        (by rw [hout]; exact hbd)
        hvmid
      refine ⟨Frame.chain hfr2 hfr, hvfin, ?_⟩
      intro x hx q k hk
      rcases List.mem_cons.mp hx with heq | hx'
      · rw [heq] at hk
        by_cases hreach : ∃ y ∈ ls', ∃ k', LPath w.outLinks y.destination q k'
        · obtain ⟨y, hy, k', hk'⟩ := hreach
          exact hprop2 y hy q k' (by rw [hout]; exact hk')
        · push_neg at hreach
          have hstab2 := foldl_pushLink_stable fuel ls' (pushLink fuel w l') q
            (by
              intro y hy k' hk'
              rw [hout] at hk'
              exact hreach y hy k' hk')
          have hq := hpush q k hk
          exact ⟨by rw [hstab2.1]; exact hq.1, by rw [hstab2.2]; exact hq.2⟩
      · exact hprop2 x hx' q k (by rw [hout]; exact hk)

theorem pushLink_propagates : ∀ fuel, PushPropagates fuel := by
  intro fuel
  induction fuel with
  | zero =>
      intro w l v _ _ _ _ hb q k _
      exact absurd (hb l.destination 0 (LPath.refl _)) (by omega)
  | succ f ih =>
      intro w l v hwf hsi hdi hv hb q k hk
      rw [pushLink, hdi]
      simp only
      have hlsv : linkSourceValue w l = v := by
        unfold linkSourceValue
        rw [hsi]
        exact hv
      have hw1v : (w.writeProp l.destination (linkSourceValue w l)).value
          l.destination = v := by
        simp [World.writeProp, hlsv]
      have hw1c : (w.writeProp l.destination (linkSourceValue w l)).changed
          l.destination = true := by
        simp [World.writeProp]
      have hfold := foldl_push_propagates f ih l.destination v
        ((w.writeProp l.destination (linkSourceValue w l)).outLinks
          l.destination)
        (w.writeProp l.destination (linkSourceValue w l))
        hwf
        (fun x hx => hx)
        (by
          intro q' k' hk'
          have := hb q' k' hk'
          omega)
        hw1v
      obtain ⟨hfr, hvd, hprop⟩ := hfold
      have hstabd := foldl_pushLink_stable f
        ((w.writeProp l.destination (linkSourceValue w l)).outLinks
          l.destination)
        (w.writeProp l.destination (linkSourceValue w l)) l.destination
        (by
          intro x hx k' hk'
          have hcy : LPath w.outLinks l.destination l.destination (k' + 1) :=
            LPath.step x hx hk'
          have := @LPath.no_cycle w.outLinks l.destination f (k' + 1)
            (fun q'' k'' hkk => by have := hb q'' k'' hkk; omega) hcy
          omega)
      rcases hk with _ | ⟨l2, hl2, hk2⟩
      · constructor
        · rw [markOwner_value]
          exact hvd
        · rw [markOwner_changed, hstabd.2]
          exact hw1c
      · have := hprop l2 hl2 q _ hk2
        exact ⟨by rw [markOwner_value]; exact this.1,
          by rw [markOwner_changed]; exact this.2⟩

theorem markOwner_lchanged_self (w : World) (p : PropId) (o : LId)
    (h : w.owner p = some o) : (w.markOwner p).lchanged o = true := by
  unfold World.markOwner
  rw [h]
  simp

/-- `Chain out p cs q`: a forward walk from `p` to `q` traversing exactly the
links `cs`, in order.  Unlike `LPath` it records the links themselves, so the
element indices along the route are visible. -/
inductive Chain (out : PropId → List Link) : PropId → List Link → PropId → Prop where
  | nil (p : PropId) : Chain out p [] p
  | cons {p q : PropId} {cs : List Link} (l : Link) (hl : l ∈ out p)
      (hc : Chain out l.destination cs q) : Chain out p (l :: cs) q

theorem Chain.toLPath {out : PropId → List Link} :
    ∀ {p q : PropId} {cs : List Link}, Chain out p cs q →
      LPath out p q cs.length := by
  intro p q cs h
  induction h with
  | nil p => exact LPath.refl p
  | cons l hl _ ih => exact LPath.step l hl ih

theorem LPath.toChain {out : PropId → List Link} :
    ∀ {p q : PropId} {k : Nat}, LPath out p q k →
      ∃ cs, Chain out p cs q ∧ cs.length = k := by
  intro p q k h
  induction h with
  | refl p => exact ⟨[], Chain.nil p, rfl⟩
  | step l hl _ ih =>
      obtain ⟨cs, hc, hlen⟩ := ih
      exact ⟨l :: cs, Chain.cons l hl hc, by simp [hlen]⟩

theorem Chain.elim_nil {out : PropId → List Link} {p q : PropId}
    (h : Chain out p [] q) : q = p := by
  cases h
  rfl

theorem Chain.elim_cons {out : PropId → List Link} {p q : PropId} {m : Link}
    {cs : List Link} (h : Chain out p (m :: cs) q) :
    m ∈ out p ∧ Chain out m.destination cs q := by
  cases h with
  | cons l hl hc => exact ⟨hl, hc⟩

/-- Every intermediate node of a chain is itself chain-reachable: the part of
the chain up to a traversed link reaches that link's destination. -/
theorem Chain.front_reaches {out : PropId → List Link} :
    ∀ (cs₁ : List Link) {p q : PropId} (l : Link) (cs₂ : List Link),
      Chain out p (cs₁ ++ l :: cs₂) q →
      Chain out p (cs₁ ++ [l]) l.destination := by
  intro cs₁
  induction cs₁ with
  | nil =>
      intro p q l cs₂ h
      obtain ⟨hl, -⟩ := Chain.elim_cons h
      exact Chain.cons l hl (Chain.nil l.destination)
  | cons m cs₁ ih =>
      intro p q l cs₂ h
      obtain ⟨hm, hc⟩ := Chain.elim_cons h
      exact Chain.cons m hm (ih l cs₂ hc)

/-- The value a link reads off a source holding `srcVal`: the whole value, or
its `sourceIndex`-th element for a source-indexed link. -/
def transmit (l : Link) (srcVal : Value) : Value :=
  match l.sourceIndex with
  | none => srcVal
  | some i => srcVal.getIdx i

/-- The value a destination holds right after a link delivers `t` into it,
given the destination's prior value in `w0`: `t` itself, or, for a
destination-indexed link, the prior value with element `destinationIndex`
replaced by `t`. -/
def landed (w0 : World) (l : Link) (t : Value) : Value :=
  match l.destinationIndex with
  | none => t
  | some j => (w0.value l.destination).setIdx j t

/-- The index-sliced value arriving at the end of a chain of links whose
start holds `v0`, when the properties along the chain still hold their `w0`
values at the moment they are written. -/
def chainValue (w0 : World) : Value → List Link → Value
  | v0, [] => v0
  | v0, l :: cs => chainValue w0 (landed w0 l (transmit l v0)) cs

theorem linkSourceValue_eq_transmit (w : World) (l : Link) :
    linkSourceValue w l = transmit l (w.value l.source) := rfl

theorem landed_congr {w1 w0 : World} (l : Link) (t : Value)
    (h : w1.value l.destination = w0.value l.destination) :
    landed w1 l t = landed w0 l t := by
  unfold landed
  cases hdi : l.destinationIndex with
  | none => rfl
  | some j => rw [h]

theorem chainValue_congr {w1 w0 : World} :
    ∀ (cs : List Link) (v0 : Value),
      (∀ l ∈ cs, w1.value l.destination = w0.value l.destination) →
      chainValue w1 v0 cs = chainValue w0 v0 cs := by
  intro cs
  induction cs with
  | nil => intro v0 _; rfl
  | cons l cs ih =>
      intro v0 h
      have hl : landed w1 l (transmit l v0) = landed w0 l (transmit l v0) :=
        landed_congr l _ (h l (List.mem_cons_self l cs))
      show chainValue w1 (landed w1 l (transmit l v0)) cs
        = chainValue w0 (landed w0 l (transmit l v0)) cs
      rw [hl]
      exact ih _ (fun x hx => h x (List.mem_cons_of_mem l hx))

/-- Unique routing from `p`: along everything forward-reachable from `p` the
outbound-link lists carry no duplicate edge and any two chains from `p` to
the same property coincide — each reachable property is fed through exactly
one route, so "the (possibly index-sliced) propagated value" denotes a single
value.  (When several conflicting routes write the same destination slot the
cascade keeps whichever push ran last, and no single propagated value
exists.) -/
def UniqueRouting (out : PropId → List Link) (p : PropId) : Prop :=
  (∀ q cs, Chain out p cs q → (out q).Nodup) ∧
  (∀ q cs cs', Chain out p cs q → Chain out p cs' q → cs = cs')

/-- Unique routing from a node extends to unique routing from each of its
link targets. -/
theorem UniqueRouting.descend {out : PropId → List Link} {d : PropId}
    (hur : UniqueRouting out d) {m : Link} (hm : m ∈ out d) :
    UniqueRouting out m.destination := by
  constructor
  · intro q cs hc
    exact hur.1 q (m :: cs) (Chain.cons m hm hc)
  · intro q cs cs' h h'
    have h2 := hur.2 q (m :: cs) (m :: cs')
      (Chain.cons m hm h) (Chain.cons m hm h')
    injection h2 with h3 h4

/-- Under unique routing no chain returns to the start through one of its
links: that would give a second route to the start besides the empty one. -/
theorem UniqueRouting.no_return {out : PropId → List Link} {d : PropId}
    (hur : UniqueRouting out d) {m : Link} (hm : m ∈ out d) :
    ∀ cs, ¬ Chain out m.destination cs d := by
  intro cs hc
  have h2 := hur.2 d (m :: cs) [] (Chain.cons m hm hc) (Chain.nil d)
  exact List.cons_ne_nil m cs h2

/-- Under unique routing the regions reached through two different links of
the same node are disjoint. -/
theorem UniqueRouting.branch_disjoint {out : PropId → List Link} {d : PropId}
    (hur : UniqueRouting out d) {m m' : Link} (hm : m ∈ out d)
    (hm' : m' ∈ out d) (hne : m ≠ m') {x : PropId} {cs cs' : List Link}
    (h : Chain out m.destination cs x) (h' : Chain out m'.destination cs' x) :
    False := by
  have h2 := hur.2 x (m :: cs) (m' :: cs')
    (Chain.cons m hm h) (Chain.cons m' hm' h')
  injection h2 with h3 h4
  exact hne h3

/-- Under unique routing no traversed link of a chain from `d` points back at
`d` itself. -/
theorem UniqueRouting.interior_ne {out : PropId → List Link} {d q : PropId}
    (hur : UniqueRouting out d) (cs₁ : List Link) (l : Link) (cs₂ : List Link)
    (h : Chain out d (cs₁ ++ l :: cs₂) q) : l.destination ≠ d := by
  intro he
  have hfront := Chain.front_reaches cs₁ l cs₂ h
  rw [he] at hfront
  have h2 := hur.2 d (cs₁ ++ [l]) [] hfront (Chain.nil d)
  exact absurd h2 (by simp)

/-- A single `pushLink` call with the given fuel delivers the index-sliced
source value along every chain from the link's destination, on uniquely
routed graphs with links registered on their sources. -/
def PushChain (fuel : Nat) : Prop :=
  ∀ (w : World) (l : Link) (sval : Value),
    (∀ q m, m ∈ w.outLinks q → m.source = q) →
    w.value l.source = sval →
    UniqueRouting w.outLinks l.destination →
    (∀ q cs, Chain w.outLinks l.destination cs q → cs.length < fuel) →
    ∀ q cs, Chain w.outLinks l.destination cs q →
      (pushLink fuel w l).value q
        = chainValue w (landed w l (transmit l sval)) cs ∧
      (pushLink fuel w l).changed q = true

/-- The push loop over the outbound links of `d` (whose current value is
`d0`): nothing outside the regions behind the looped links moves, and along
every chain through one of them the final state holds the chain's
index-sliced value with the changed flag set. -/
theorem foldl_pushChain (fuel : Nat) (hp : PushChain fuel) (d : PropId)
    (d0 : Value) :
    ∀ (ms : List Link) (w : World),
      (∀ q m, m ∈ w.outLinks q → m.source = q) →
      (∀ m ∈ ms, m ∈ w.outLinks d) →
      ms.Nodup →
      UniqueRouting w.outLinks d →
      (∀ q cs, Chain w.outLinks d cs q → cs.length ≤ fuel) →
      w.value d = d0 →
      Frame (ms.foldl (fun a b => pushLink fuel a b) w) w ∧
      (∀ q, (∀ m ∈ ms, ∀ cs, ¬ Chain w.outLinks m.destination cs q) →
        (ms.foldl (fun a b => pushLink fuel a b) w).value q = w.value q ∧
        (ms.foldl (fun a b => pushLink fuel a b) w).changed q = w.changed q) ∧
      (∀ m ∈ ms, ∀ q cs, Chain w.outLinks m.destination cs q →
        (ms.foldl (fun a b => pushLink fuel a b) w).value q
          = chainValue w (landed w m (transmit m d0)) cs ∧
        (ms.foldl (fun a b => pushLink fuel a b) w).changed q = true) := by
  intro ms
  induction ms with
  | nil =>
      intro w _ _ _ _ _ _
      exact ⟨Frame.refl w, fun q _ => ⟨rfl, rfl⟩, by simp⟩
  | cons m ms' ihl =>
      intro w hsrc hsub hnd hur hb hvd
      simp only [List.foldl_cons]
      have hmmem : m ∈ w.outLinks d := hsub m (List.mem_cons_self m ms')
      have hmsrc : m.source = d := hsrc d m hmmem
      have hpush := hp w m d0 hsrc (by rw [hmsrc]; exact hvd)
        (UniqueRouting.descend hur hmmem)
        (by
          intro q' cs' hc'
          have hlen := hb q' (m :: cs') (Chain.cons m hmmem hc')
          simp only [List.length_cons] at hlen
          omega)
      have hfr1 : Frame (pushLink fuel w m) w := pushLink_frame ..
      have hout1 : (pushLink fuel w m).outLinks = w.outLinks := hfr1.outLinks
      have hstab1 : ∀ q, (∀ cs, ¬ Chain w.outLinks m.destination cs q) →
          (pushLink fuel w m).value q = w.value q ∧
          (pushLink fuel w m).changed q = w.changed q := by
        intro q hq
        refine pushLink_stable fuel w m q ?_
        intro k hk
        obtain ⟨cs, hc, -⟩ := LPath.toChain hk
        exact hq cs hc
      have hdun : ∀ cs, ¬ Chain w.outLinks m.destination cs d :=
        UniqueRouting.no_return hur hmmem
      have hvd1 : (pushLink fuel w m).value d = d0 := by
        rw [(hstab1 d hdun).1]; exact hvd
      obtain ⟨hfr2, hstab2, hfin2⟩ := ihl (pushLink fuel w m)
        (by rw [hout1]; exact hsrc)
        (fun x hx => by rw [hout1]; exact hsub x (List.mem_cons_of_mem m hx))
        (List.Nodup.of_cons hnd)
        (by rw [hout1]; exact hur)
        (by rw [hout1]; exact hb)
        hvd1
      refine ⟨Frame.chain hfr2 hfr1, ?_, ?_⟩
      · intro q hq
        have hq' : ∀ m' ∈ ms', ∀ cs,
            ¬ Chain (pushLink fuel w m).outLinks m'.destination cs q := by
          rw [hout1]
          exact fun m' hm' => hq m' (List.mem_cons_of_mem m hm')
        have e2 := hstab2 q hq'
        have e1 := hstab1 q (hq m (List.mem_cons_self m ms'))
        exact ⟨e2.1.trans e1.1, e2.2.trans e1.2⟩
      · intro m'' hm'' q cs hc
        rcases List.mem_cons.mp hm'' with heq | htail
        · subst heq
          have hqnot : ∀ m' ∈ ms', ∀ cs',
              ¬ Chain w.outLinks m'.destination cs' q := by
            intro m' hm' cs' hc'
            have hm'mem : m' ∈ w.outLinks d :=
              hsub m' (List.mem_cons_of_mem m'' hm')
            have hne : m'' ≠ m' := by
              intro he
              exact (List.nodup_cons.mp hnd).1 (he ▸ hm')
            exact UniqueRouting.branch_disjoint hur hmmem hm'mem hne hc hc'
          have e2 := hstab2 q (by rw [hout1]; exact hqnot)
          have e1 := hpush q cs hc
          exact ⟨e2.1.trans e1.1, e2.2.trans e1.2⟩
        · have hm''mem : m'' ∈ w.outLinks d :=
            hsub m'' (List.mem_cons_of_mem m htail)
          have hne : m ≠ m'' := by
            intro he
            exact (List.nodup_cons.mp hnd).1 (he ▸ htail)
          have huntouched : ∀ x, (∃ csx, Chain w.outLinks m''.destination csx x) →
              (pushLink fuel w m).value x = w.value x := by
            intro x hx
            obtain ⟨csx, hcx⟩ := hx
            refine (hstab1 x ?_).1
            intro csm hcm
            exact UniqueRouting.branch_disjoint hur hmmem hm''mem hne hcm hcx
          have e2 := hfin2 m'' htail q cs (by rw [hout1]; exact hc)
          have hdest : (pushLink fuel w m).value m''.destination
              = w.value m''.destination :=
            huntouched m''.destination ⟨[], Chain.nil m''.destination⟩
          have hland : landed (pushLink fuel w m) m'' (transmit m'' d0)
              = landed w m'' (transmit m'' d0) :=
            landed_congr m'' _ hdest
          have hcv : chainValue (pushLink fuel w m)
                (landed w m'' (transmit m'' d0)) cs
              = chainValue w (landed w m'' (transmit m'' d0)) cs := by
            apply chainValue_congr
            intro l' hl'
            obtain ⟨pre, post, hsplit⟩ := List.append_of_mem hl'
            rw [hsplit] at hc
            exact huntouched l'.destination
              ⟨pre ++ [l'], Chain.front_reaches pre l' post hc⟩
          rw [hland, hcv] at e2
          exact e2

/-- Core of the inductive propagation step: once the destination holds the
landed value with its changed flag set and nothing else has moved, the fold
over the destination's outbound links realises every chain value. -/
theorem pushCore (f : Nat) (hp : PushChain f) (w w1 : World) (l : Link)
    (sval : Value)
    (hsrc : ∀ q m, m ∈ w.outLinks q → m.source = q)
    (hur : UniqueRouting w.outLinks l.destination)
    (hb : ∀ q cs, Chain w.outLinks l.destination cs q → cs.length ≤ f)
    (h1out : w1.outLinks = w.outLinks)
    (h1d : w1.value l.destination = landed w l (transmit l sval))
    (h1c : w1.changed l.destination = true)
    (h1off : ∀ x, x ≠ l.destination → w1.value x = w.value x) :
    ∀ q cs, Chain w.outLinks l.destination cs q →
      ((w1.outLinks l.destination).foldl
        (fun a b => pushLink f a b) w1).value q
        = chainValue w (landed w l (transmit l sval)) cs ∧
      ((w1.outLinks l.destination).foldl
        (fun a b => pushLink f a b) w1).changed q = true := by
  intro q cs hc
  obtain ⟨hfr, hstab, hfin⟩ := foldl_pushChain f hp l.destination
    (landed w l (transmit l sval)) (w1.outLinks l.destination) w1
    (by rw [h1out]; exact hsrc)
    (fun x hx => hx)
    (by rw [h1out]; exact hur.1 l.destination [] (Chain.nil l.destination))
    (by rw [h1out]; exact hur)
    (by rw [h1out]; exact hb)
    h1d
  cases cs with
  | nil =>
      have hq := Chain.elim_nil hc
      subst hq
      have hnr : ∀ m' ∈ w1.outLinks l.destination, ∀ cs',
          ¬ Chain w1.outLinks m'.destination cs' l.destination := by
        rw [h1out]
        exact fun m' hm' cs' hc' => UniqueRouting.no_return hur hm' cs' hc'
      have hst := hstab l.destination hnr
      exact ⟨by rw [hst.1]; exact h1d, by rw [hst.2]; exact h1c⟩
  | cons m cs' =>
      obtain ⟨hm, hcm⟩ := Chain.elim_cons hc
      have e := hfin m (by rw [h1out]; exact hm) q cs'
        (by rw [h1out]; exact hcm)
      have hmd : m.destination ≠ l.destination :=
        UniqueRouting.interior_ne hur [] m cs' hc
      have hland : landed w1 m (transmit m (landed w l (transmit l sval)))
          = landed w m (transmit m (landed w l (transmit l sval))) :=
        landed_congr m _ (h1off m.destination hmd)
      have hcv : chainValue w1
            (landed w m (transmit m (landed w l (transmit l sval)))) cs'
          = chainValue w
            (landed w m (transmit m (landed w l (transmit l sval)))) cs' := by
        apply chainValue_congr
        intro l' hl'
        obtain ⟨pre, post, hsplit⟩ := List.append_of_mem hl'
        rw [hsplit] at hcm
        have hfull : Chain w.outLinks l.destination
            (m :: (pre ++ l' :: post)) q := Chain.cons m hm hcm
        exact h1off l'.destination
          (UniqueRouting.interior_ne hur (m :: pre) l' post hfull)
      rw [hland, hcv] at e
      exact e

theorem pushChain_all : ∀ fuel, PushChain fuel := by
  intro fuel
  induction fuel with
  | zero =>
      intro w l sval _ _ _ hb q cs hc
      exact absurd (hb l.destination [] (Chain.nil l.destination)) (by simp)
  | succ f ih =>
      intro w l sval hsrc hsv hur hb q cs hc
      have hb' : ∀ q' cs', Chain w.outLinks l.destination cs' q' →
          cs'.length ≤ f := by
        intro q' cs' hc'
        have := hb q' cs' hc'
        omega
      have hlv : linkSourceValue w l = transmit l sval := by
        rw [linkSourceValue_eq_transmit, hsv]
      rw [pushLink]
      cases hdi : l.destinationIndex with
      | none =>
          simp only
          have hld : landed w l (transmit l sval) = transmit l sval := by
            unfold landed
            rw [hdi]
          have hcore := pushCore f ih w
            (w.writeProp l.destination (linkSourceValue w l)) l sval hsrc hur
            hb' rfl
            (by simp [World.writeProp, hlv, hld])
            (by simp [World.writeProp])
            (by intro x hx; simp [World.writeProp, hx])
            q cs hc
          exact ⟨by rw [markOwner_value]; exact hcore.1,
            by rw [markOwner_changed]; exact hcore.2⟩
      | some j =>
          simp only
          have hld : landed w l (transmit l sval)
              = (w.value l.destination).setIdx j (transmit l sval) := by
            unfold landed
            rw [hdi]
          have hcore := pushCore f ih w
            ((w.flagProp l.destination).writeProp l.destination
              ((w.value l.destination).setIdx j (linkSourceValue w l))) l sval
            hsrc hur hb' rfl
            (by simp [World.writeProp, World.flagProp, hlv, hld])
            (by simp [World.writeProp, World.flagProp])
            (by intro x hx; simp [World.writeProp, World.flagProp, hx])
            q cs hc
          exact ⟨by rw [markOwner_value]; exact hcore.1,
            by rw [markOwner_changed]; exact hcore.2⟩

/-- C1: `Property.setValue(v)` stores `v`, sets the property's changed flag,
pushes the value through every outbound link and marks the owning linkable
changed; in an acyclic link graph every property reachable from `p` over
forward links — the direct link targets included — holds the propagated
value, with its changed flag set, before `setValue` returns.  Part one: for
whole-value links (no element indices) the propagated value is `v` itself,
on arbitrary acyclic graphs (every forward walk bounded by the fuel),
converging routes included.  Part two: with arbitrary source- and
destination-indexed links, every property at the end of a chain `cs` of
forward links holds the index-sliced value `chainValue w v cs` — the
composition of the per-link slicing steps along its route — whenever each
reachable property is fed through exactly one route (`UniqueRouting`),
which is what makes "the possibly index-sliced propagated value" a single
well-defined value.  Both parts assume links are registered on their
sources, which `Property.addOutLink` enforces with a thrown error. -/
theorem setValue_propagates (fuel : Nat) (w : World) (p : PropId) (v : Value) :
    (LinksWF w.outLinks →
      (∀ q k, LPath w.outLinks p q k → k ≤ fuel) →
      (setValue fuel w p v).value p = v ∧
      (setValue fuel w p v).changed p = true ∧
      (∀ o, w.owner p = some o → (setValue fuel w p v).lchanged o = true) ∧
      (∀ q k, LPath w.outLinks p q k →
        (setValue fuel w p v).value q = v ∧
        (setValue fuel w p v).changed q = true)) ∧
    ((∀ q l, l ∈ w.outLinks q → l.source = q) →
      UniqueRouting w.outLinks p →
      (∀ q cs, Chain w.outLinks p cs q → cs.length ≤ fuel) →
      (∀ o, w.owner p = some o → (setValue fuel w p v).lchanged o = true) ∧
      (∀ q cs, Chain w.outLinks p cs q →
        (setValue fuel w p v).value q = chainValue w v cs ∧
        (setValue fuel w p v).changed q = true)) := by
  constructor
  · intro hwf hb
    unfold setValue
    simp only
    have hw1v : (w.writeProp p v).value p = v := by
      simp [World.writeProp]
    have hw1c : (w.writeProp p v).changed p = true := by
      simp [World.writeProp]
    have hfold := foldl_push_propagates fuel (pushLink_propagates fuel) p v
      ((w.writeProp p v).outLinks p) (w.writeProp p v)
      hwf (fun x hx => hx) hb hw1v
    obtain ⟨hfr, hvd, hprop⟩ := hfold
    have hstabd := foldl_pushLink_stable fuel ((w.writeProp p v).outLinks p)
      (w.writeProp p v) p
      (by
        intro x hx k' hk'
        have hcy : LPath w.outLinks p p (k' + 1) := LPath.step x hx hk'
        have := @LPath.no_cycle w.outLinks p fuel (k' + 1) hb hcy
        omega)
    have howner : (((w.writeProp p v).outLinks p).foldl
        (fun a b => pushLink fuel a b) (w.writeProp p v)).owner = w.owner :=
      hfr.owner
    refine ⟨?_, ?_, ?_, ?_⟩
    · rw [markOwner_value]
      exact hvd
    · rw [markOwner_changed, hstabd.2]
      exact hw1c
    · intro o ho
      exact markOwner_lchanged_self _ p o (howner ▸ ho)
    · intro q k hk
      rcases hk with _ | ⟨l2, hl2, hk2⟩
      · exact ⟨by rw [markOwner_value]; exact hvd,
          by rw [markOwner_changed, hstabd.2]; exact hw1c⟩
      · have := hprop l2 hl2 q _ hk2
        exact ⟨by rw [markOwner_value]; exact this.1,
          by rw [markOwner_changed]; exact this.2⟩
  · intro hsrc hur hb
    unfold setValue
    simp only
    have hw1v : (w.writeProp p v).value p = v := by
      simp [World.writeProp]
    have hw1c : (w.writeProp p v).changed p = true := by
      simp [World.writeProp]
    have hsrc' : ∀ q m, m ∈ w.outLinks q → m.source = q :=
      fun q m hm => hsrc q m hm
    obtain ⟨hfr, hstab, hfin⟩ := foldl_pushChain fuel (pushChain_all fuel) p v
      ((w.writeProp p v).outLinks p) (w.writeProp p v)
      hsrc' (fun x hx => hx) (hur.1 p [] (Chain.nil p)) hur hb hw1v
    have hstabp := hstab p
      (fun m hm cs hc => UniqueRouting.no_return hur hm cs hc)
    have howner : (((w.writeProp p v).outLinks p).foldl
        (fun a b => pushLink fuel a b) (w.writeProp p v)).owner = w.owner :=
      hfr.owner
    constructor
    · intro o ho
      exact markOwner_lchanged_self _ p o (howner ▸ ho)
    · intro q cs hc
      cases cs with
      | nil =>
          have hq := Chain.elim_nil hc
          subst hq
          exact ⟨by rw [markOwner_value, hstabp.1]; exact hw1v,
            by rw [markOwner_changed, hstabp.2]; exact hw1c⟩
      | cons m cs' =>
          obtain ⟨hm, hcm⟩ := Chain.elim_cons hc
          have e := hfin m hm q cs' hcm
          have hmd : m.destination ≠ p :=
            UniqueRouting.interior_ne hur [] m cs' hc
          have hoffp : ∀ x, x ≠ p → (w.writeProp p v).value x = w.value x :=
            fun x hx => by simp [World.writeProp, hx]
          have hland : landed (w.writeProp p v) m (transmit m v)
              = landed w m (transmit m v) :=
            landed_congr m _ (hoffp m.destination hmd)
          have hcv : chainValue (w.writeProp p v) (landed w m (transmit m v))
                cs'
              = chainValue w (landed w m (transmit m v)) cs' := by
            apply chainValue_congr
            intro l' hl'
            obtain ⟨pre, post, hsplit⟩ := List.append_of_mem hl'
            rw [hsplit] at hcm
            have hfull : Chain w.outLinks p
                (m :: (pre ++ l' :: post)) q := Chain.cons m hm hcm
            exact hoffp l'.destination
              (UniqueRouting.interior_ne hur (m :: pre) l' post hfull)
          rw [hland, hcv] at e
          exact ⟨by rw [markOwner_value]; exact e.1,
            by rw [markOwner_changed]; exact e.2⟩

/-- A two-link chain: property 0 links to property 1, which links to
property 2; each property is owned by the linkable with the same id. -/
def chainWorld : World :=
  { baseWorld with
    owner := fun p => some p
    outLinks := fun p =>
      if p = 0 then [⟨0, 1, none, none⟩]
      else if p = 1 then [⟨1, 2, none, none⟩] else []
    inLinks := fun p =>
      if p = 1 then [⟨0, 1, none, none⟩]
      else if p = 2 then [⟨1, 2, none, none⟩] else [] }

/-- Walks are at most two links long when no link's target's target has
outbound links. -/
theorem lpath_bound_depth2 (out : PropId → List Link)
    (h : ∀ p l, l ∈ out p → ∀ l', l' ∈ out l.destination →
      out l'.destination = []) :
    ∀ x y k, LPath out x y k → k ≤ 2 := by
  intro x y k hp
  rcases hp with _ | ⟨l, hl, hp'⟩
  · omega
  · rcases hp' with _ | ⟨l', hl', hp''⟩
    · omega
    · rcases hp'' with _ | ⟨l'', hl'', -⟩
      · omega
      · rw [h x l hl l' hl'] at hl''
        cases hl''

theorem chainWorld_wf : LinksWF chainWorld.outLinks := by
  intro p l hl
  by_cases h0 : p = 0
  · subst h0
    have he : chainWorld.outLinks 0 = [⟨0, 1, none, none⟩] := rfl
    rw [he, List.mem_singleton] at hl
    subst hl
    exact ⟨rfl, rfl, rfl⟩
  · by_cases h1 : p = 1
    · subst h1
      have he : chainWorld.outLinks 1 = [⟨1, 2, none, none⟩] := rfl
      rw [he, List.mem_singleton] at hl
      subst hl
      exact ⟨rfl, rfl, rfl⟩
    · exfalso
      have he : chainWorld.outLinks p = [] := by
        simp [chainWorld, h0, h1]
      rw [he] at hl
      cases hl

theorem chainWorld_flat : ∀ p l, l ∈ chainWorld.outLinks p →
    ∀ l', l' ∈ chainWorld.outLinks l.destination →
    chainWorld.outLinks l'.destination = [] := by
  intro p l hl l' hl'
  by_cases h0 : p = 0
  · subst h0
    have he : chainWorld.outLinks 0 = [⟨0, 1, none, none⟩] := rfl
    rw [he, List.mem_singleton] at hl
    subst hl
    have he1 : chainWorld.outLinks (1 : PropId) = [⟨1, 2, none, none⟩] := rfl
    rw [he1, List.mem_singleton] at hl'
    subst hl'
    rfl
  · by_cases h1 : p = 1
    · subst h1
      have he : chainWorld.outLinks 1 = [⟨1, 2, none, none⟩] := rfl
      rw [he, List.mem_singleton] at hl
      subst hl
      have he2 : chainWorld.outLinks (2 : PropId) = [] := rfl
      rw [he2] at hl'
      cases hl'
    · exfalso
      have he : chainWorld.outLinks p = [] := by
        simp [chainWorld, h0, h1]
      rw [he] at hl
      cases hl

/-- One source-indexed link: element 1 of property 0 (a four-element vector)
feeds scalar property 1 — the spec's `vec4[1] → num` scenario; each property
is owned by the linkable with the same id. -/
def idxWorld : World :=
  { baseWorld with
    elements := fun p => if p = 0 then 4 else 1
    owner := fun p => some p
    outLinks := fun p => if p = 0 then [⟨0, 1, some 1, none⟩] else []
    inLinks := fun p => if p = 1 then [⟨0, 1, some 1, none⟩] else [] }

/-- The only chains out of property 0 in `idxWorld` are the empty one and the
single indexed link. -/
theorem idxWorld_chains (q : PropId) (cs : List Link)
    (hc : Chain idxWorld.outLinks 0 cs q) :
    (cs = [] ∧ q = 0) ∨ (cs = [⟨0, 1, some 1, none⟩] ∧ q = 1) := by
  cases cs with
  | nil => exact Or.inl ⟨rfl, Chain.elim_nil hc⟩
  | cons m cs' =>
      obtain ⟨hm, hc'⟩ := Chain.elim_cons hc
      have hout0 : idxWorld.outLinks 0 = [⟨0, 1, some 1, none⟩] := rfl
      rw [hout0, List.mem_singleton] at hm
      subst hm
      cases cs' with
      | nil => exact Or.inr ⟨rfl, Chain.elim_nil hc'⟩
      | cons m2 cs'' =>
          obtain ⟨hm2, -⟩ := Chain.elim_cons hc'
          have hm2' : m2 ∈ ([] : List Link) := hm2
          cases hm2'

theorem idxWorld_src : ∀ (q : PropId) (l : Link),
    l ∈ idxWorld.outLinks q → l.source = q := by
  intro q l hl
  by_cases h0 : q = 0
  · subst h0
    have he : idxWorld.outLinks 0 = [⟨0, 1, some 1, none⟩] := rfl
    rw [he, List.mem_singleton] at hl
    subst hl
    rfl
  · exfalso
    have he : idxWorld.outLinks q = [] := by
      simp [idxWorld, h0]
    rw [he] at hl
    cases hl

theorem idxWorld_unique : UniqueRouting idxWorld.outLinks 0 := by
  constructor
  · intro q cs hc
    rcases idxWorld_chains q cs hc with ⟨-, hq⟩ | ⟨-, hq⟩
    · subst hq
      exact List.nodup_singleton _
    · subst hq
      exact List.nodup_nil
  · intro q cs cs' h h'
    rcases idxWorld_chains q cs h with ⟨h1, h2⟩ | ⟨h1, h2⟩ <;>
      rcases idxWorld_chains q cs' h' with ⟨h3, h4⟩ | ⟨h3, h4⟩
    · rw [h1, h3]
    · subst h2; exact absurd h4 (by decide)
    · subst h4; exact absurd h2 (by decide)
    · rw [h1, h3]

theorem idxWorld_bound : ∀ (q : PropId) (cs : List Link),
    Chain idxWorld.outLinks 0 cs q → cs.length ≤ 2 := by
  intro q cs hc
  rcases idxWorld_chains q cs hc with ⟨h1, -⟩ | ⟨h1, -⟩ <;> subst h1 <;> decide

/-- C1, witness: setting property 0 of `chainWorld` to `13` stores it there,
propagates it through both whole-value links to properties 1 and 2, sets
their changed flags and marks the owning linkable changed, synchronously;
and setting property 0 of `idxWorld` to the array `[1, 2, 3, 4]` delivers
its index-sliced element 1 — the number `2` — into property 1 through the
source-indexed link, again synchronously. -/
theorem setValue_propagates_witness :
    (setValue 2 chainWorld 0 (Value.num 13)).value 0 = Value.num 13 ∧
    (setValue 2 chainWorld 0 (Value.num 13)).value 1 = Value.num 13 ∧
    (setValue 2 chainWorld 0 (Value.num 13)).value 2 = Value.num 13 ∧
    (setValue 2 chainWorld 0 (Value.num 13)).changed 2 = true ∧
    (setValue 2 chainWorld 0 (Value.num 13)).lchanged 0 = true ∧
    (setValue 2 idxWorld 0 (Value.arr
      [Value.num 1, Value.num 2, Value.num 3, Value.num 4])).value 1
      = Value.num 2 ∧
    (setValue 2 idxWorld 0 (Value.arr
      [Value.num 1, Value.num 2, Value.num 3, Value.num 4])).changed 1
      = true ∧
    (setValue 2 idxWorld 0 (Value.arr
      [Value.num 1, Value.num 2, Value.num 3, Value.num 4])).lchanged 0
      = true := by
  have h := (setValue_propagates 2 chainWorld 0 (Value.num 13)).1
    chainWorld_wf
    (fun q k hk => lpath_bound_depth2 chainWorld.outLinks chainWorld_flat
      0 q k hk)
  have h2 := (setValue_propagates 2 idxWorld 0 (Value.arr
      [Value.num 1, Value.num 2, Value.num 3, Value.num 4])).2
    idxWorld_src idxWorld_unique idxWorld_bound
  have hpath1 : LPath chainWorld.outLinks 0 1 1 :=
    LPath.step ⟨0, 1, none, none⟩ (by decide) (LPath.refl 1)
  have hpath2 : LPath chainWorld.outLinks 0 2 2 :=
    LPath.step ⟨0, 1, none, none⟩ (by decide)
      (LPath.step ⟨1, 2, none, none⟩ (by decide) (LPath.refl 2))
  have hchain1 : Chain idxWorld.outLinks 0 [⟨0, 1, some 1, none⟩] 1 :=
    Chain.cons ⟨0, 1, some 1, none⟩ (by decide) (Chain.nil 1)
  have hval := h2.2 1 [⟨0, 1, some 1, none⟩] hchain1
  exact ⟨h.1, (h.2.2.2 1 1 hpath1).1, (h.2.2.2 2 2 hpath2).1,
    (h.2.2.2 2 2 hpath2).2, h.2.2.1 0 rfl,
    hval.1, hval.2, h2.1 0 rfl⟩

end FFCore
